import Mathlib

/-!
Verification of the puzzle engines of the Puzzle-Game-GUI repository
(`main.py`): the Sudoku generator/solver, the maze generator/solver and
the word-ladder search.  Python lists of lists become Lean `List`s of
`List`s, in-place mutation becomes explicit state passing, and the
process-wide random generator becomes an explicit oracle argument.
Unbounded Python recursion is modelled with an explicit fuel parameter
that bounds the recursion depth; the entry points pass a fuel that is
large enough for the recursion to never hit the fuel cutoff (each
nested call strictly shrinks the quantity the fuel bounds).
-/

/-- A Sudoku board: a list of rows of cells, `0` meaning empty. -/
abbrev Board := List (List Nat)

/-- `board[row][col]`, with out-of-range reads defaulting to `0`. -/
def getCell (b : Board) (r c : Nat) : Nat := (b.getD r []).getD c 0

/-- `board[row][col] = v`; out-of-range writes leave the board unchanged. -/
def setCell (b : Board) (r c v : Nat) : Board := b.set r ((b.getD r []).set c v)

/-- The row-major scan for the first empty (`0`) cell.  This models both the
nested `for` loops of `SudokuGenerator.solve_board` and the method
`SudokuSolverDFS.find_empty_cell`, which perform the identical scan. -/
def firstEmptyCell (size : Nat) (b : Board) : Option (Nat × Nat) :=
  (List.range size).findSome? fun r =>
    (List.range size).findSome? fun c =>
      if getCell b r c == 0 then some (r, c) else none

/-- The list `range(1, size + 1)` of candidate values. -/
def candNums (size : Nat) : List Nat := (List.range size).map (· + 1)

/-- `int(n ** 0.5)`: the integer square root, the largest `k` with
`k * k ≤ n`.  (Written as a counting computation rather than `Nat.sqrt` so
that it reduces inside the kernel; `intSqrt_eq_sqrt` below checks the two
agree.) -/
def intSqrt (n : Nat) : Nat :=
  ((List.range (n + 1)).filter (fun k => decide (k * k ≤ n))).length - 1

namespace SudokuGenerator

/-- `SudokuGenerator.is_valid_move(board, row, col, num)`: the scan of row
`row`, column `col` and the `box_size × box_size` sub-box with origin
`(row - row % box_size, col - col % box_size)`.  `SudokuSolverDFS.is_valid_move`
is the verbatim same code operating on the solver's own board. -/
def is_valid_move (size box_size : Nat) (b : Board) (row col num : Nat) : Bool :=
  if (List.range size).any (fun i => getCell b row i == num || getCell b i col == num) then
    false
  else
    let start_row := row - row % box_size
    let start_col := col - col % box_size
    if (List.range box_size).any (fun i =>
        (List.range box_size).any (fun j =>
          getCell b (start_row + i) (start_col + j) == num)) then
      false
    else
      true

/-- The inner `for num in range(1, size+1)` loop of `solve_board`: try each
candidate in order; on a valid candidate place it and recurse (`solveF`), on
recursive failure clear the cell again and continue; when the candidates are
exhausted report failure. -/
def tryNums (size box_size : Nat) (solveF : Board → Bool × Board) (r c : Nat) :
    List Nat → Board → Bool × Board
  | [], b => (false, b)
  | num :: rest, b =>
    if is_valid_move size box_size b r c num then
      match solveF (setCell b r c num) with
      | (true, b2) => (true, b2)
      | (false, b2) => tryNums size box_size solveF r c rest (setCell b2 r c 0)
    else
      tryNums size box_size solveF r c rest b

/-- `SudokuGenerator.solve_board`: find the first empty cell in row-major
order and try the candidate values there; succeed when no empty cell is left.
The fuel bounds the recursion depth (each nested call has one empty cell
fewer, so `numEmpty + 1` fuel suffices at the entry point). -/
def solve_board (size box_size : Nat) : Nat → Board → Bool × Board
  | 0, b => (false, b)
  | fuel + 1, b =>
    match firstEmptyCell size b with
    | none => (true, b)
    | some (r, c) =>
      tryNums size box_size (solve_board size box_size fuel) r c (candNums size) b

end SudokuGenerator

/-- The number of empty cells among the `size × size` scanned positions;
used only to size the fuel of the solver entry points. -/
def numEmpty (size : Nat) (b : Board) : Nat :=
  ((List.range size).map
    (fun r => ((List.range size).filter (fun c => getCell b r c == 0)).length)).sum

/-- `solve_board` as called on a board: `self.size`/`self.box_size` come from
the constructor (`box_size = int(size ** 0.5)`). -/
def SudokuGenerator.solveEntry (size : Nat) (b : Board) : Bool × Board :=
  SudokuGenerator.solve_board size (intSqrt size) (numEmpty size b + 1) b

namespace SudokuSolverDFS

/-- The inner candidate loop of `SudokuSolverDFS.solve`, threading the board
and the `num_solutions` counter. -/
def tryNums (size box_size : Nat) (solveF : Board → Nat → Bool × Board × Nat) (r c : Nat) :
    List Nat → Board → Nat → Bool × Board × Nat
  | [], b, cnt => (false, b, cnt)
  | num :: rest, b, cnt =>
    if SudokuGenerator.is_valid_move size box_size b r c num then
      match solveF (setCell b r c num) cnt with
      | (true, b2, cnt2) => (true, b2, cnt2)
      | (false, b2, cnt2) => tryNums size box_size solveF r c rest (setCell b2 r c 0) cnt2
    else
      tryNums size box_size solveF r c rest b cnt

/-- `SudokuSolverDFS.solve`: on a full board increment `num_solutions` and
return `True`; otherwise try candidates at the first empty cell, returning
`True` as soon as a recursive call succeeds. -/
def solve (size box_size : Nat) : Nat → Board → Nat → Bool × Board × Nat
  | 0, b, cnt => (false, b, cnt)
  | fuel + 1, b, cnt =>
    match firstEmptyCell size b with
    | none => (true, b, cnt + 1)
    | some (r, c) =>
      tryNums size box_size (solve size box_size fuel) r c (candNums size) b cnt

end SudokuSolverDFS

/-- `SudokuGenerator.has_unique_solution(board)`: construct a
`SudokuSolverDFS` on the board (`size = len(board)`,
`box_size = int(size ** 0.5)`, `num_solutions = 0`), run `solve()` once and
test `num_solutions == 1`.  The solver's mutated board is discarded. -/
def SudokuGenerator.has_unique_solution (b : Board) : Bool :=
  let size := b.length
  let box_size := intSqrt size
  (SudokuSolverDFS.solve size box_size (numEmpty size b + 1) b 0).2.2 == 1

namespace SudokuGenerator

/-- The `while board[row][col] == 0` re-sampling loop of `remove_numbers`:
draw `(row, col)` pairs from the random oracle until a filled cell is hit.
The Python loop draws from an inexhaustible generator; the oracle is a finite
list and the loop reports `none` if it runs out. -/
def pickFilledCell (b : Board) : List Nat → Option ((Nat × Nat) × List Nat)
  | r :: c :: rest =>
    if getCell b r c == 0 then pickFilledCell b rest else some ((r, c), rest)
  | _ => none

/-- One iteration of the `remove_numbers` loop: draw a filled cell, clear it,
deep-copy the board and probe `has_unique_solution` on the copy; restore the
cleared value if the probe fails.  In the value semantics the deep copy
`temp_board = [row[:] for row in board]` is the board value itself. -/
def removeStep (b : Board) (oracle : List Nat) : Board × List Nat :=
  match pickFilledCell b oracle with
  | none => (b, [])
  | some ((row, col), rest) =>
    let temp := getCell b row col
    let b1 := setCell b row col 0
    let temp_board := b1
    if ¬ has_unique_solution temp_board then (setCell b1 row col temp, rest)
    else (b1, rest)

/-- The `for _ in range(num_to_remove)` loop of `remove_numbers`. -/
def removeLoop : Nat → Board → List Nat → Board
  | 0, b, _ => b
  | n + 1, b, oracle =>
    let s := removeStep b oracle
    removeLoop n s.1 s.2

/-- `SudokuGenerator.remove_numbers`: remove `40` cells when `size == 9`,
otherwise `4`, each removal guarded by the uniqueness probe. -/
def remove_numbers (size : Nat) (b : Board) (oracle : List Nat) : Board :=
  removeLoop (if size == 9 then 40 else 4) b oracle

/-- `SudokuGenerator.generate_board`: start from the all-zero grid, solve it
in place, then remove numbers (the random draws coming from the oracle). -/
def generate_board (size : Nat) (oracle : List Nat) : Board :=
  let board : Board := List.replicate size (List.replicate size 0)
  let board1 := (solveEntry size board).2
  remove_numbers size board1 oracle

end SudokuGenerator

/-- `sol` is a complete valid assignment of the empty cells of `puzzle`:
it is a `size × size` grid, every cell holds a value in `1..size`, it agrees
with `puzzle` on the filled cells, and each value is the only occurrence of
that value in its row, column and sub-box (the cell itself is cleared before
the peer scan, so only the peers are constrained). -/
def IsSolutionOf (size : Nat) (puzzle sol : Board) : Prop :=
  sol.length = size ∧ (∀ row ∈ sol, row.length = size) ∧
  ∀ r < size, ∀ c < size,
    1 ≤ getCell sol r c ∧ getCell sol r c ≤ size ∧
    (getCell puzzle r c ≠ 0 → getCell sol r c = getCell puzzle r c) ∧
    SudokuGenerator.is_valid_move size (intSqrt size)
      (setCell sol r c 0) r c (getCell sol r c) = true

instance (size : Nat) (puzzle sol : Board) : Decidable (IsSolutionOf size puzzle sol) := by
  unfold IsSolutionOf; infer_instance

/-- The row/column/box scan as the spec words it, without any exclusion of
the probed cell itself: `num` appears nowhere in row `row`, nowhere in column
`col`, and nowhere in the sub-box with origin
`(row - row % box_size, col - col % box_size)`. -/
def ValidMoveSpec (size box_size : Nat) (b : Board) (row col num : Nat) : Prop :=
  (∀ i < size, getCell b row i ≠ num) ∧
  (∀ i < size, getCell b i col ≠ num) ∧
  (∀ i < box_size, ∀ j < box_size,
    getCell b (row - row % box_size + i) (col - col % box_size + j) ≠ num)

instance (size box_size : Nat) (b : Board) (row col num : Nat) :
    Decidable (ValidMoveSpec size box_size b row col num) := by
  unfold ValidMoveSpec; infer_instance

/-- The claim's wording of the validity predicate: `num` does not appear
*elsewhere*, i.e. at any scanned cell other than `(row, col)` itself. -/
def ValidMoveClaim (size box_size : Nat) (b : Board) (row col num : Nat) : Prop :=
  (∀ i < size, i ≠ col → getCell b row i ≠ num) ∧
  (∀ i < size, i ≠ row → getCell b i col ≠ num) ∧
  (∀ i < box_size, ∀ j < box_size,
    ¬(row - row % box_size + i = row ∧ col - col % box_size + j = col) →
      getCell b (row - row % box_size + i) (col - col % box_size + j) ≠ num)

instance (size box_size : Nat) (b : Board) (row col num : Nat) :
    Decidable (ValidMoveClaim size box_size b row col num) := by
  unfold ValidMoveClaim; infer_instance

/-! ### Maze data model -/

/-- A maze: a list of rows of characters (`'#'` wall, `' '` open,
`'S'` start, `'E'` end). -/
abbrev Maze := List (List Char)

/-- `maze[row][col]` for the in-bounds coordinates at which the code reads
(reads are always guarded by the bounds checks of `is_valid_move`). -/
def getM (m : Maze) (r c : Int) : Char := (m.getD r.toNat []).getD c.toNat '#'

/-- `maze[row][col] = ch` (writes in the code always happen at coordinates
already known to be in bounds). -/
def setM (m : Maze) (r c : Int) (ch : Char) : Maze :=
  m.set r.toNat ((m.getD r.toNat []).set c.toNat ch)

/-- `visited[row][col]` of the maze solver. -/
def getVis (v : List (List Bool)) (r c : Int) : Bool :=
  (v.getD r.toNat []).getD c.toNat false

/-- `visited[row][col] = True`. -/
def setVis (v : List (List Bool)) (r c : Int) : List (List Bool) :=
  v.set r.toNat ((v.getD r.toNat []).set c.toNat true)

/-- The direction list `[(0, 1), (0, -1), (1, 0), (-1, 0)]` shared by the
maze generator and solver. -/
def mazeDirections : List (Int × Int) := [(0, 1), (0, -1), (1, 0), (-1, 0)]

namespace MazeGenerator

/-- The per-call orders in which the shuffled `self.directions` list is
traversed; one entry is consumed per `dfs` call (the process-wide random
shuffle made explicit). -/
abbrev CarveOracle := List (List (Int × Int))

/-- `MazeGenerator.is_valid_move(row, col)`: in bounds and still a wall. -/
def is_valid_move (rows cols : Nat) (maze : Maze) (row col : Int) : Bool :=
  decide (0 ≤ row) && decide (row < (rows : Int)) &&
    decide (0 ≤ col) && decide (col < (cols : Int)) && (getM maze row col == '#')

/-- The `for dr, dc in self.directions` loop of the carving `dfs`: for each
direction whose two-step destination is an in-bounds wall, open the
intermediate and destination cells and recurse (`dfsF`) into the
destination. -/
def carveDirs (rows cols : Nat) (dfsF : Maze → Int → Int → CarveOracle → Maze × CarveOracle) :
    List (Int × Int) → Int → Int → Maze → CarveOracle → Maze × CarveOracle
  | [], _, _, maze, oracle => (maze, oracle)
  | (dr, dc) :: rest, row, col, maze, oracle =>
    let new_row := row + 2 * dr
    let new_col := col + 2 * dc
    if is_valid_move rows cols maze new_row new_col then
      let maze1 := setM maze (row + dr) (col + dc) ' '
      let maze2 := setM maze1 new_row new_col ' '
      let s := dfsF maze2 new_row new_col oracle
      carveDirs rows cols dfsF rest row col s.1 s.2
    else
      carveDirs rows cols dfsF rest row col maze oracle

/-- `MazeGenerator.dfs`: shuffle the directions (take the next order from
the oracle, the original order when the oracle is exhausted) and carve.  The
fuel bounds the recursion depth; each nested call first turns a wall cell
into an open cell, so `rows * cols + 1` fuel is never exhausted. -/
def dfs (rows cols : Nat) : Nat → Maze → Int → Int → CarveOracle → Maze × CarveOracle
  | 0, maze, _, _, oracle => (maze, oracle)
  | fuel + 1, maze, row, col, oracle =>
    let dirs := oracle.headD mazeDirections
    carveDirs rows cols (dfs rows cols fuel) dirs row col maze oracle.tail

/-- The maze state right after `generate_maze` marks the start and end
cells on the all-wall grid, before carving starts. -/
def markedMaze (rows cols : Nat) (sr sc er ec : Int) : Maze :=
  setM (setM (List.replicate rows (List.replicate cols '#')) sr sc 'S') er ec 'E'

/-- `MazeGenerator.generate_maze`: mark start and end and carve from the
start cell. -/
def generate_maze (rows cols : Nat) (sr sc er ec : Int) (oracle : CarveOracle) : Maze :=
  (dfs rows cols (rows * cols + 1) (markedMaze rows cols sr sc er ec) sr sc oracle).1

end MazeGenerator

namespace MazeSolverDFS

/-- The mutable search state of `MazeSolverDFS`: the visited matrix and the
path stack. -/
structure SState where
  visited : List (List Bool)
  path : List (Int × Int)

/-- `MazeSolverDFS.is_valid_move(row, col)`: in bounds, not yet visited and
not a wall. -/
def is_valid_move (rows cols : Nat) (maze : Maze) (visited : List (List Bool))
    (row col : Int) : Bool :=
  decide (0 ≤ row) && decide (row < (rows : Int)) &&
    decide (0 ≤ col) && decide (col < (cols : Int)) &&
    !(getVis visited row col) && (getM maze row col != '#')

/-- The `for dr, dc in self.directions` loop of the solving `dfs`: try the
four neighbours in order, stopping at the first recursive success. -/
def tryDirs (dfsF : Int → Int → SState → Bool × SState) :
    List (Int × Int) → Int → Int → SState → Bool × SState
  | [], _, _, st => (false, st)
  | (dr, dc) :: rest, row, col, st =>
    match dfsF (row + dr) (col + dc) st with
    | (true, st2) => (true, st2)
    | (false, st2) => tryDirs dfsF rest row col st2

/-- `MazeSolverDFS.dfs`: reject invalid cells; mark the cell visited and push
it on the path; succeed on `'E'`; otherwise recurse through the four
directions, popping the cell off the path before returning failure.  The
fuel bounds the recursion depth; each nested call happens with one more
visited cell, so `rows * cols + 1` fuel is never exhausted. -/
def dfs (rows cols : Nat) (maze : Maze) : Nat → Int → Int → SState → Bool × SState
  | 0, _, _, st => (false, st)
  | fuel + 1, row, col, st =>
    if is_valid_move rows cols maze st.visited row col then
      let st1 : SState := ⟨setVis st.visited row col, st.path ++ [(row, col)]⟩
      if getM maze row col == 'E' then (true, st1)
      else
        match tryDirs (dfs rows cols maze fuel) mazeDirections row col st1 with
        | (true, st2) => (true, st2)
        | (false, st2) => (false, ⟨st2.visited, st2.path.dropLast⟩)
    else
      (false, st)

/-- The state built by the `MazeSolverDFS` constructor: nothing visited, an
empty path. -/
def initState (rows cols : Nat) : SState :=
  ⟨List.replicate rows (List.replicate cols false), []⟩

/-- `MazeSolverDFS.solve(start_row, start_col)`: reject an invalid starting
position without searching; otherwise run `dfs` and return the path on
success, `None` on failure (`rows = len(maze)`, `cols = len(maze[0])`). -/
def solve (maze : Maze) (start_row start_col : Int) :
    Option (List (Int × Int)) × SState :=
  let rows := maze.length
  let cols := (maze.getD 0 []).length
  let st0 := initState rows cols
  if is_valid_move rows cols maze st0.visited start_row start_col then
    match dfs rows cols maze (rows * cols + 1) start_row start_col st0 with
    | (true, st) => (some st.path, st)
    | (false, st) => (none, st)
  else
    (none, st0)

end MazeSolverDFS

/-! ### Maze reachability (specification vocabulary for the solver) -/

/-- One cardinal step: the coordinates differ by exactly one of the four
direction vectors (Manhattan distance 1). -/
def cardStep (p q : Int × Int) : Prop :=
  (q.1 - p.1, q.2 - p.2) ∈ mazeDirections

/-- In bounds and not a wall (the part of `is_valid_move` that does not
depend on the visited state). -/
def openCell (rows cols : Nat) (maze : Maze) (p : Int × Int) : Prop :=
  0 ≤ p.1 ∧ p.1 < (rows : Int) ∧ 0 ≤ p.2 ∧ p.2 < (cols : Int) ∧
    getM maze p.1 p.2 ≠ '#'

/-- The cell is traversable for the solver right now: exactly
`MazeSolverDFS.is_valid_move`. -/
def validCell (rows cols : Nat) (maze : Maze) (visited : List (List Bool))
    (p : Int × Int) : Prop :=
  MazeSolverDFS.is_valid_move rows cols maze visited p.1 p.2 = true

/-- Reachability from `p` through traversable (in-bounds, unvisited,
non-wall) cells by cardinal steps; both endpoints traversable. -/
inductive ReachM (rows cols : Nat) (maze : Maze) (visited : List (List Bool)) :
    (Int × Int) → (Int × Int) → Prop
  | refl (p : Int × Int) : validCell rows cols maze visited p →
      ReachM rows cols maze visited p p
  | step (p q r : Int × Int) : ReachM rows cols maze visited p q →
      cardStep q r → validCell rows cols maze visited r →
      ReachM rows cols maze visited p r

/-- Well-formedness of the visited matrix: `rows` rows of `cols` entries. -/
def visWF (rows cols : Nat) (v : List (List Bool)) : Prop :=
  v.length = rows ∧ ∀ row ∈ v, row.length = cols

/-- The set of in-bounds, not-yet-visited positions; its cardinality bounds
the depth of the solver's recursion. -/
def unvisCnt (rows cols : Nat) (v : List (List Bool)) : Nat :=
  (((Finset.range rows) ×ˢ (Finset.range cols)).filter
    (fun p => getVis v (p.1 : Int) (p.2 : Int) = false)).card

/-! ### Word ladder data model -/

/-- A word, as its list of characters. -/
abbrev Word := List Char

/-- The literal `'abcdefghijklmnopqrstuvwxyz'` iterated by `get_neighbors`. -/
def alphabet : List Char :=
  ['a', 'b', 'c', 'd', 'e', 'f', 'g', 'h', 'i', 'j', 'k', 'l', 'm',
   'n', 'o', 'p', 'q', 'r', 's', 't', 'u', 'v', 'w', 'x', 'y', 'z']

namespace WordLadderGame

/-- `WordLadderGame.get_neighbors(word)`: for every position `i` and every
lowercase letter, form `word[:i] + char + word[i+1:]` and keep it when it
differs from `word` and belongs to the word set. -/
def get_neighbors (word_list : List Word) (word : Word) : List Word :=
  (List.range word.length).flatMap fun i =>
    alphabet.filterMap fun ch =>
      let new_word := word.take i ++ [ch] ++ word.drop (i + 1)
      if new_word ≠ word ∧ new_word ∈ word_list then some new_word else none

/-- A frontier entry of the BFS: the `(word, path-so-far)` pair. -/
abbrev Entry := Word × List Word

/-- The `for neighbor in self.get_neighbors(current_word)` loop body of
`find_shortest_path`: enqueue each not-yet-visited neighbour with its
extended path and mark it visited. -/
def bfsFold (path : List Word) (nbrs : List Word) (q : List Entry)
    (visited : List Word) : List Entry × List Word :=
  nbrs.foldl
    (fun acc neighbor =>
      if neighbor ∈ acc.2 then acc
      else (acc.1 ++ [(neighbor, path ++ [neighbor])], neighbor :: acc.2))
    (q, visited)

/-- The `while queue:` loop of `find_shortest_path`: pop the front entry,
return its path when its word is the end word, otherwise enqueue the
unvisited neighbours.  The fuel bounds the number of iterations (every
enqueued word is added to the visited set at enqueue time, so the loop
cannot run forever; fuel exhaustion yields the `None` of an exhausted
queue). -/
def bfsLoop (word_list : List Word) (end_word : Word) :
    Nat → List Entry → List Word → Option (List Word)
  | 0, _, _ => none
  | _ + 1, [], _ => none
  | fuel + 1, (current_word, path) :: qrest, visited =>
    if current_word = end_word then some path
    else
      let step := bfsFold path (get_neighbors word_list current_word) qrest visited
      bfsLoop word_list end_word fuel step.1 step.2

/-- `WordLadderGame.find_shortest_path(start_word, end_word)`: `None` when
either endpoint is missing from the word set, otherwise BFS from the queue
`[(start_word, [start_word])]` with `visited = {start_word}`. -/
def find_shortest_path (word_list : List Word) (start_word end_word : Word) :
    Option (List Word) :=
  if start_word ∈ word_list ∧ end_word ∈ word_list then
    bfsLoop word_list end_word (word_list.length + 1)
      [(start_word, [start_word])] [start_word]
  else
    none

end WordLadderGame

/-- Two words differ in exactly one character position: equal lengths, and
exactly one index at which the characters disagree (the claim's notion of a
single transformation step). -/
def DifferOne (u v : Word) : Prop :=
  u.length = v.length ∧
    ((List.range u.length).filter
      (fun i => decide (u.getD i 'a' ≠ v.getD i 'a'))).length = 1

instance (u v : Word) : Decidable (DifferOne u v) := by
  unfold DifferOne; infer_instance

/-- The claim's notion of a valid transformation path from `s` to `e`: a
sequence of dictionary words, starting at `s`, ending at `e`, each word
differing from the previous one in exactly one character position. -/
def IsLadder (word_list : List Word) (s e : Word) (p : List Word) : Prop :=
  p.head? = some s ∧ p.getLast? = some e ∧
    (∀ w ∈ p, w ∈ word_list) ∧ p.Chain' DifferOne

instance (word_list : List Word) (s e : Word) (p : List Word) :
    Decidable (IsLadder word_list s e p) := by
  unfold IsLadder; infer_instance

/-- A path following the search graph that the BFS actually explores: each
word is a `get_neighbors` successor of the previous one. -/
def IsNbrLadder (word_list : List Word) (s w : Word) (p : List Word) : Prop :=
  p.head? = some s ∧ p.getLast? = some w ∧
    p.Chain' (fun u v => v ∈ WordLadderGame.get_neighbors word_list u)

/-- Every character of the word is one of the 26 lowercase letters (the
spec's `WordSet` data model: "a set of fixed-length lowercase strings"). -/
def Lowercase (w : Word) : Prop := ∀ ch ∈ w, ch ∈ alphabet

instance (w : Word) : Decidable (Lowercase w) := by
  unfold Lowercase; infer_instance

/-- The length of the path at the front of the BFS queue (`0` for an empty
queue); the BFS frontier level. -/
def frontLen (q : List WordLadderGame.Entry) : Nat :=
  match q with
  | [] => 0
  | wp :: _ => wp.2.length

/-- The BFS loop invariant tying the queue and the visited set to the
search graph:
* `entries`: every queued path is a neighbour-path from the start to its
  word;
* `optimal`: every queued path is a shortest neighbour-path to its word;
* `sorted`/`window`: path lengths are non-decreasing along the queue and
  stay within one of the front length;
* `coverage`: every word reachable by a neighbour-path no longer than the
  front path is already visited;
* `expanded`: every visited word either still waits in the queue or has all
  its neighbours visited;
* `nodups`: queued paths repeat no word, and consist of visited words. -/
structure BfsInv (word_list : List Word) (s : Word)
    (q : List WordLadderGame.Entry) (visited : List Word) : Prop where
  entries : ∀ wp ∈ q, IsNbrLadder word_list s wp.1 wp.2
  optimal : ∀ wp ∈ q, ∀ p, IsNbrLadder word_list s wp.1 p → wp.2.length ≤ p.length
  sorted : q.Pairwise (fun a b => a.2.length ≤ b.2.length)
  window : ∀ wp ∈ q, wp.2.length ≤ frontLen q + 1
  coverage : ∀ u p, IsNbrLadder word_list s u p → p.length ≤ frontLen q → u ∈ visited
  expanded : ∀ v ∈ visited, (∃ p, (v, p) ∈ q) ∨
    ∀ u ∈ WordLadderGame.get_neighbors word_list v, u ∈ visited
  nodups : ∀ wp ∈ q, wp.2.Nodup ∧ ∀ x ∈ wp.2, x ∈ visited

/-! ### Helper lemmas -/

theorem filter_range_le_length (n m : Nat) (h : m ≤ n) :
    ((List.range (n + 1)).filter (fun k => decide (k ≤ m))).length = m + 1 := by
  induction n with
  | zero =>
    have hm : m = 0 := Nat.le_zero.mp h
    subst hm
    rfl
  | succ n ih =>
    rcases Nat.lt_or_ge m (n + 1) with hm | hm
    · have hmn : m ≤ n := Nat.lt_succ_iff.mp hm
      rw [List.range_succ, List.filter_append]
      have hlast : (decide (n + 1 ≤ m)) = false := by
        simp only [decide_eq_false_iff_not]
        omega
      simp only [List.filter_cons, hlast, List.filter_nil, List.length_append,
        Bool.false_eq_true, if_false, List.length_nil, Nat.add_zero]
      exact ih hmn
    · have hm' : m = n + 1 := Nat.le_antisymm h hm
      subst hm'
      rw [List.filter_eq_self.mpr, List.length_range]
      intro a ha
      rw [List.mem_range] at ha
      simp only [decide_eq_true_eq]
      omega

/-- Sanity check for the embedding: `intSqrt` is the integer square root. -/
theorem intSqrt_eq_sqrt (n : Nat) : intSqrt n = Nat.sqrt n := by
  unfold intSqrt
  have hcong : (List.range (n + 1)).filter (fun k => decide (k * k ≤ n))
      = (List.range (n + 1)).filter (fun k => decide (k ≤ Nat.sqrt n)) := by
    apply List.filter_congr
    intro k _
    simp only [decide_eq_decide]
    exact Nat.le_sqrt.symm
  rw [hcong, filter_range_le_length n (Nat.sqrt n) (Nat.sqrt_le_self n)]
  omega

theorem set_getD_self {α : Type} : ∀ (l : List α) (i : Nat) (d : α),
    l.set i (l.getD i d) = l
  | [], _, _ => by simp
  | _ :: _, 0, _ => by simp
  | x :: xs, i + 1, d => by
    simpa using set_getD_self xs i d

/-- Clearing a cell and writing back the value read before the clear restores
the board. -/
theorem setCell_clear_restore : ∀ (b : Board) (r c : Nat),
    setCell (setCell b r c 0) r c (getCell b r c) = b
  | [], _, _ => by simp [setCell]
  | row :: rows, 0, c => by
    simp only [setCell, getCell, List.set_cons_zero, List.getD_cons_zero]
    rw [List.set_set]
    exact congrArg (· :: rows) (set_getD_self row c 0)
  | row :: rows, r + 1, c => by
    simp only [setCell, getCell, List.set_cons_succ, List.getD_cons_succ]
    exact congrArg (row :: ·) (setCell_clear_restore rows r c)

/-- The re-sampling loop only ever returns a filled cell. -/
theorem pickFilledCell_filled (b : Board) :
    ∀ (oracle : List Nat) (rc : (Nat × Nat) × List Nat),
      SudokuGenerator.pickFilledCell b oracle = some rc → getCell b rc.1.1 rc.1.2 ≠ 0
  | [], rc => by simp [SudokuGenerator.pickFilledCell]
  | [_], rc => by simp [SudokuGenerator.pickFilledCell]
  | r :: c :: rest, rc => by
    intro h
    rw [SudokuGenerator.pickFilledCell] at h
    by_cases h0 : (getCell b r c == 0) = true
    · rw [if_pos h0] at h
      exact pickFilledCell_filled b rest rc h
    · rw [if_neg h0] at h
      obtain rfl : ((r, c), rest) = rc := Option.some.inj h
      simpa using h0

/-- A board with no empty scanned cell has no first empty cell. -/
theorem firstEmptyCell_eq_none (size : Nat) (b : Board)
    (h : ∀ r < size, ∀ c < size, getCell b r c ≠ 0) :
    firstEmptyCell size b = none := by
  unfold firstEmptyCell
  rw [List.findSome?_eq_none_iff]
  intro r hr
  rw [List.findSome?_eq_none_iff]
  intro c hc
  have hrc := h r (List.mem_range.mp hr) c (List.mem_range.mp hc)
  simp [hrc]

/-! ### C3: the validity predicate -/

/-- C3 (amended): `is_valid_move` returns `True` iff `num` appears nowhere in
the scanned row, column and sub-box — including at `(row, col)` itself. -/
theorem c3_is_valid_move_iff_no_occurrence (size box_size : Nat) (b : Board)
    (row col num : Nat) :
    SudokuGenerator.is_valid_move size box_size b row col num = true ↔
      ValidMoveSpec size box_size b row col num := by
  unfold SudokuGenerator.is_valid_move ValidMoveSpec
  by_cases h1 :
      ((List.range size).any fun i => getCell b row i == num || getCell b i col == num) = true
  · rw [if_pos h1]
    simp only [Bool.false_eq_true, false_iff]
    obtain ⟨i, hi, hor⟩ := List.any_eq_true.mp h1
    rw [List.mem_range] at hi
    simp only [Bool.or_eq_true, beq_iff_eq] at hor
    rintro ⟨hrow, hcol, _⟩
    rcases hor with hr | hc
    · exact hrow i hi hr
    · exact hcol i hi hc
  · rw [if_neg h1]
    by_cases h2 : ((List.range box_size).any fun i =>
        (List.range box_size).any fun j =>
          getCell b (row - row % box_size + i) (col - col % box_size + j) == num) = true
    · rw [if_pos h2]
      simp only [Bool.false_eq_true, false_iff]
      obtain ⟨i, hi, hj⟩ := List.any_eq_true.mp h2
      obtain ⟨j, hjm, hcell⟩ := List.any_eq_true.mp hj
      rw [List.mem_range] at hi hjm
      rw [beq_iff_eq] at hcell
      rintro ⟨_, _, hbox⟩
      exact hbox i hi j hjm hcell
    · rw [if_neg h2]
      simp only [true_iff]
      refine ⟨?_, ?_, ?_⟩
      · intro i hi hcell
        exact h1 (List.any_eq_true.mpr ⟨i, List.mem_range.mpr hi, by simp [hcell]⟩)
      · intro i hi hcell
        exact h1 (List.any_eq_true.mpr ⟨i, List.mem_range.mpr hi, by simp [hcell]⟩)
      · intro i hi j hj hcell
        exact h2 (List.any_eq_true.mpr ⟨i, List.mem_range.mpr hi,
          List.any_eq_true.mpr ⟨j, List.mem_range.mpr hj, beq_iff_eq.mpr hcell⟩⟩)

/-- C3 counterexample: on the 4×4 board whose only entry is a `1` at `(0,0)`,
probing `(0,0)` with value `1` (an in-bounds coordinate and a value in
`1..size`), `is_valid_move` returns `False` although `1` does not appear at
any cell other than `(0,0)` itself — the claimed "appears elsewhere"
biconditional fails because the scan also sees the probed cell. -/
theorem c3_claim_counterexample :
    SudokuGenerator.is_valid_move 4 2
        [[1,0,0,0],[0,0,0,0],[0,0,0,0],[0,0,0,0]] 0 0 1 = false ∧
      ValidMoveClaim 4 2 [[1,0,0,0],[0,0,0,0],[0,0,0,0],[0,0,0,0]] 0 0 1 ∧
      (0 < 4 ∧ 0 < 4 ∧ 1 ≤ 1 ∧ 1 ≤ 4) := by
  decide

/-! ### C1 / C2: the uniqueness probe and generation -/

/-- C1: `has_unique_solution` accepts a board with many complete valid
assignments.  On the all-empty 4×4 board the probe returns `True` (its inner
`solve()` stops at the first solution, so `num_solutions` never exceeds `1`)
even though the two distinct grids exhibited here are both complete valid
assignments of the board's empty cells. -/
theorem c1_has_unique_solution_accepts_ambiguous_board :
    SudokuGenerator.has_unique_solution (List.replicate 4 (List.replicate 4 0)) = true ∧
      IsSolutionOf 4 (List.replicate 4 (List.replicate 4 0))
        [[1,2,3,4],[3,4,1,2],[2,1,4,3],[4,3,2,1]] ∧
      IsSolutionOf 4 (List.replicate 4 (List.replicate 4 0))
        [[2,1,3,4],[3,4,1,2],[1,2,4,3],[4,3,2,1]] ∧
      ([[1,2,3,4],[3,4,1,2],[2,1,4,3],[4,3,2,1]] : Board) ≠
        [[2,1,3,4],[3,4,1,2],[1,2,4,3],[4,3,2,1]] := by
  decide

/-- C2: a full run of `generate_board` (size 4, removal budget 4) with the
random draws `(0,0), (0,1), (2,0), (2,1)` produces a puzzle admitting two
distinct complete valid solutions: every removal passes the (broken)
uniqueness guard, so uniqueness does not hold when generation completes. -/
theorem c2_generate_board_yields_ambiguous_puzzle :
    SudokuGenerator.generate_board 4 [0,0,0,1,2,0,2,1] =
        [[0,0,3,4],[3,4,1,2],[0,0,4,3],[4,3,2,1]] ∧
      IsSolutionOf 4 [[0,0,3,4],[3,4,1,2],[0,0,4,3],[4,3,2,1]]
        [[1,2,3,4],[3,4,1,2],[2,1,4,3],[4,3,2,1]] ∧
      IsSolutionOf 4 [[0,0,3,4],[3,4,1,2],[0,0,4,3],[4,3,2,1]]
        [[2,1,3,4],[3,4,1,2],[1,2,4,3],[4,3,2,1]] ∧
      ([[1,2,3,4],[3,4,1,2],[2,1,4,3],[4,3,2,1]] : Board) ≠
        [[2,1,3,4],[3,4,1,2],[1,2,4,3],[4,3,2,1]] := by
  decide

/-! ### C4: solving a full board is a no-op -/

/-- C4: on a grid with no empty (0) cell among the scanned positions, the
backtracking solver reports success and returns the grid unchanged. -/
theorem c4_solve_full_board_noop (size : Nat) (b : Board)
    (h : ∀ r < size, ∀ c < size, getCell b r c ≠ 0) :
    SudokuGenerator.solveEntry size b = (true, b) := by
  unfold SudokuGenerator.solveEntry
  rw [SudokuGenerator.solve_board, firstEmptyCell_eq_none size b h]

/-- Witness for C4 at a concrete fully-solved 4×4 grid. -/
theorem c4_solve_full_board_noop_witness :
    (∀ r < 4, ∀ c < 4,
        getCell [[1,2,3,4],[3,4,1,2],[2,1,4,3],[4,3,2,1]] r c ≠ 0) ∧
      SudokuGenerator.solveEntry 4 [[1,2,3,4],[3,4,1,2],[2,1,4,3],[4,3,2,1]] =
        (true, [[1,2,3,4],[3,4,1,2],[2,1,4,3],[4,3,2,1]]) :=
  ⟨by decide, c4_solve_full_board_noop 4 _ (by decide)⟩

/-! ### C9: atomicity of one removal iteration -/

/-- C9: each iteration of `remove_numbers` either clears exactly one
previously-filled cell of the working board or returns the working board
exactly as it was; the uniqueness probe runs on the deep-copied value and
contributes only its boolean verdict. -/
theorem c9_remove_step_atomic (b : Board) (oracle : List Nat) :
    (SudokuGenerator.removeStep b oracle).1 = b ∨
      ∃ r c, getCell b r c ≠ 0 ∧
        (SudokuGenerator.removeStep b oracle).1 = setCell b r c 0 := by
  unfold SudokuGenerator.removeStep
  cases hp : SudokuGenerator.pickFilledCell b oracle with
  | none => exact Or.inl rfl
  | some v =>
    obtain ⟨⟨r, c⟩, rest⟩ := v
    have hne : getCell b r c ≠ 0 := pickFilledCell_filled b oracle ((r, c), rest) hp
    by_cases hu : SudokuGenerator.has_unique_solution (setCell b r c 0) = true
    · right
      exact ⟨r, c, hne, by simp [hu]⟩
    · left
      simp only [hu, not_false_iff, if_true, if_pos]
      exact setCell_clear_restore b r c

/-! ### Maze helper lemmas -/

theorem getD_set_cases {α : Type} : ∀ (l : List α) (i j : Nat) (x d : α),
    (i = j ∧ j < l.length ∧ (l.set i x).getD j d = x) ∨
      (l.set i x).getD j d = l.getD j d
  | [], _, _, _, _ => Or.inr rfl
  | a :: l, 0, 0, x, d => Or.inl ⟨rfl, Nat.succ_pos _, rfl⟩
  | a :: l, 0, j + 1, x, d => Or.inr rfl
  | a :: l, i + 1, 0, x, d => Or.inr rfl
  | a :: l, i + 1, j + 1, x, d => by
    rcases getD_set_cases l i j x d with ⟨hij, hlt, hv⟩ | hv
    · exact Or.inl ⟨by omega, by simpa using Nat.succ_lt_succ hlt, by simpa using hv⟩
    · exact Or.inr (by simpa using hv)

theorem getD_replicate {α : Type} : ∀ (n : Nat) (x d : α) (i : Nat),
    (List.replicate n x).getD i d = x ∨ (List.replicate n x).getD i d = d
  | 0, _, _, _ => Or.inr rfl
  | n + 1, x, d, 0 => Or.inl rfl
  | n + 1, x, d, i + 1 => by
    rw [List.replicate_succ]
    simpa using getD_replicate n x d i

/-- A maze write changes a read cell either to the written character or not
at all. -/
theorem getM_setM_cases (m : Maze) (a b r c : Int) (ch : Char) :
    getM (setM m a b ch) r c = ch ∨ getM (setM m a b ch) r c = getM m r c := by
  unfold getM setM
  rcases getD_set_cases m a.toNat r.toNat ((m.getD a.toNat []).set b.toNat ch) []
    with ⟨hij, _, hv⟩ | hv
  · rw [hv, ← hij]
    rcases getD_set_cases (m.getD a.toNat []) b.toNat c.toNat ch '#' with ⟨_, _, hv2⟩ | hv2
    · exact Or.inl hv2
    · exact Or.inr hv2
  · exact Or.inr (by rw [hv])

/-- The carving loop only ever writes the open character `' '`, so a cell
that is not a wall can never become a wall again (single step form). -/
theorem carveDirs_preserves_nonwall (rows cols : Nat)
    (dfsF : Maze → Int → Int → MazeGenerator.CarveOracle → Maze × MazeGenerator.CarveOracle)
    (hf : ∀ maze row col oracle r c, getM maze r c ≠ '#' →
      getM (dfsF maze row col oracle).1 r c ≠ '#') :
    ∀ (dirs : List (Int × Int)) (row col : Int) (maze : Maze)
      (oracle : MazeGenerator.CarveOracle) (r c : Int),
      getM maze r c ≠ '#' →
      getM (MazeGenerator.carveDirs rows cols dfsF dirs row col maze oracle).1 r c ≠ '#'
  | [], _, _, _, _, _, _ => fun h => h
  | (dr, dc) :: rest, row, col, maze, oracle, r, c => by
    intro h
    rw [MazeGenerator.carveDirs]
    by_cases hv : MazeGenerator.is_valid_move rows cols maze (row + 2 * dr) (col + 2 * dc) = true
    · rw [if_pos hv]
      have h1 : getM (setM maze (row + dr) (col + dc) ' ') r c ≠ '#' := by
        rcases getM_setM_cases maze (row + dr) (col + dc) r c ' ' with he | he <;> rw [he] <;>
          simp_all
      have h2 : getM (setM (setM maze (row + dr) (col + dc) ' ')
          (row + 2 * dr) (col + 2 * dc) ' ') r c ≠ '#' := by
        rcases getM_setM_cases (setM maze (row + dr) (col + dc) ' ')
          (row + 2 * dr) (col + 2 * dc) r c ' ' with he | he <;> rw [he] <;> simp_all
      exact carveDirs_preserves_nonwall rows cols dfsF hf rest row col _ _ r c (hf _ _ _ _ r c h2)
    · rw [if_neg hv]
      exact carveDirs_preserves_nonwall rows cols dfsF hf rest row col maze oracle r c h

/-- `MazeGenerator.dfs` never turns a non-wall cell back into a wall. -/
theorem carve_dfs_preserves_nonwall (rows cols : Nat) :
    ∀ (fuel : Nat) (maze : Maze) (row col : Int) (oracle : MazeGenerator.CarveOracle)
      (r c : Int), getM maze r c ≠ '#' →
      getM (MazeGenerator.dfs rows cols fuel maze row col oracle).1 r c ≠ '#'
  | 0, _, _, _, _, _, _ => fun h => h
  | fuel + 1, maze, row, col, oracle, r, c => by
    intro h
    rw [MazeGenerator.dfs]
    exact carveDirs_preserves_nonwall rows cols (MazeGenerator.dfs rows cols fuel)
      (fun m rw cl o r' c' => carve_dfs_preserves_nonwall rows cols fuel m rw cl o r' c')
      _ row col maze oracle.tail r c h

/-! ### C7: carved cells stay open -/

/-- C7 counterexample: carving a 1×5 maze with start `(0,1)` and end `(0,2)`
(first shuffled order `[(0,1), (0,-1), (1,0), (-1,0)]`) performs a step that
changes the non-wall end cell: after `generate_maze` marks start and end the
cell `(0,2)` holds `'E'`, and carving the move `(0,1) → (0,3)` overwrites it
with the open character, so the step relation does not only change wall
cells. -/
theorem c7_claim_counterexample :
    getM (MazeGenerator.markedMaze 1 5 0 1 0 2) 0 2 = 'E' ∧ 'E' ≠ '#' ∧
      getM (MazeGenerator.generate_maze 1 5 0 1 0 2
        [[(0, 1), (0, -1), (1, 0), (-1, 0)]]) 0 2 = ' ' := by
  decide

/-- C7 (amended): from the moment `generate_maze` marks start and end, no
cell holding a non-wall value is ever reverted to a wall by the carving
recursion — every carving write stores the open character `' '` (though such
a write may overwrite a non-wall marker such as `'E'` when the unguarded
intermediate cell of a carving move lands on it). -/
theorem c7_once_open_stays_open (rows cols : Nat) (sr sc er ec : Int)
    (oracle : MazeGenerator.CarveOracle) (r c : Int)
    (h : getM (MazeGenerator.markedMaze rows cols sr sc er ec) r c ≠ '#') :
    getM (MazeGenerator.generate_maze rows cols sr sc er ec oracle) r c ≠ '#' :=
  carve_dfs_preserves_nonwall rows cols (rows * cols + 1)
    (MazeGenerator.markedMaze rows cols sr sc er ec) sr sc oracle r c h

/-- Witness for C7 at the 1×5 maze: the end cell is non-wall after marking
and stays non-wall after the full carve. -/
theorem c7_once_open_stays_open_witness :
    getM (MazeGenerator.markedMaze 1 5 0 1 0 2) 0 2 ≠ '#' ∧
      getM (MazeGenerator.generate_maze 1 5 0 1 0 2
        [[(0, 1), (0, -1), (1, 0), (-1, 0)]]) 0 2 ≠ '#' :=
  ⟨by decide, c7_once_open_stays_open 1 5 0 1 0 2
    [[(0, 1), (0, -1), (1, 0), (-1, 0)]] 0 2 (by decide)⟩

/-! ### C5: invalid maze start short-circuits -/

/-- Nothing is visited in the constructor state. -/
theorem initState_visited_false (rows cols : Nat) (r c : Int) :
    getVis (MazeSolverDFS.initState rows cols).visited r c = false := by
  unfold MazeSolverDFS.initState getVis
  rcases getD_replicate rows (List.replicate cols false) [] r.toNat with h1 | h1 <;> rw [h1]
  · rcases getD_replicate cols false false c.toNat with h2 | h2 <;> rw [h2]
  · rfl

/-- C5: an out-of-bounds or wall start coordinate makes `solve` return `None`
immediately, with the visited matrix still all-false and the path still
empty (no search step has run). -/
theorem c5_invalid_start_returns_none (maze : Maze) (sr sc : Int)
    (h : ¬(0 ≤ sr ∧ sr < (maze.length : Int) ∧ 0 ≤ sc ∧
        sc < ((maze.getD 0 []).length : Int)) ∨ getM maze sr sc = '#') :
    MazeSolverDFS.solve maze sr sc =
        (none, MazeSolverDFS.initState maze.length (maze.getD 0 []).length) ∧
      (MazeSolverDFS.initState maze.length (maze.getD 0 []).length).path = [] ∧
      ∀ r c : Int,
        getVis (MazeSolverDFS.initState maze.length (maze.getD 0 []).length).visited
          r c = false := by
  refine ⟨?_, rfl, fun r c => initState_visited_false _ _ r c⟩
  have hfalse : MazeSolverDFS.is_valid_move maze.length (maze.getD 0 []).length maze
      (MazeSolverDFS.initState maze.length (maze.getD 0 []).length).visited sr sc = false := by
    rw [Bool.eq_false_iff]
    intro htrue
    unfold MazeSolverDFS.is_valid_move at htrue
    simp only [Bool.and_eq_true, decide_eq_true_eq, Bool.not_eq_true', bne_iff_ne] at htrue
    obtain ⟨⟨⟨⟨⟨h1, h2⟩, h3⟩, h4⟩, _⟩, hwall⟩ := htrue
    rcases h with hoob | hw
    · exact hoob ⟨h1, h2, h3, h4⟩
    · exact hwall hw
  unfold MazeSolverDFS.solve
  simp only [hfalse, Bool.false_eq_true, if_false]

/-- Witness for C5: the 1×1 all-wall maze with start `(0,0)`. -/
theorem c5_invalid_start_returns_none_witness :
    getM [['#']] 0 0 = '#' ∧
      MazeSolverDFS.solve [['#']] 0 0 = (none, MazeSolverDFS.initState 1 1) :=
  ⟨by decide, (c5_invalid_start_returns_none [['#']] 0 0 (Or.inr (by decide))).1⟩

/-! ### Word ladder: substitution and neighbour characterisation -/

theorem subst_cons_succ (a : Char) (w : Word) (i : Nat) (ch : Char) :
    (a :: w).take (i + 1) ++ [ch] ++ (a :: w).drop (i + 1 + 1) =
      a :: (w.take i ++ [ch] ++ w.drop (i + 1)) := by
  simp

theorem subst_length (ch : Char) : ∀ (w : Word) (i : Nat), i < w.length →
    (w.take i ++ [ch] ++ w.drop (i + 1)).length = w.length
  | [], _, h => absurd h (by simp)
  | a :: w, 0, _ => by simp
  | a :: w, i + 1, h => by
    rw [subst_cons_succ, List.length_cons, List.length_cons,
      subst_length ch w i (by simpa using h)]

theorem subst_getD (ch d : Char) : ∀ (w : Word) (i : Nat), i < w.length → ∀ (j : Nat),
    (w.take i ++ [ch] ++ w.drop (i + 1)).getD j d = if j = i then ch else w.getD j d
  | [], _, h, _ => absurd h (by simp)
  | a :: w, 0, _, 0 => by simp
  | a :: w, 0, _, j + 1 => by simp
  | a :: w, i + 1, h, 0 => by
    rw [subst_cons_succ]
    simp
  | a :: w, i + 1, h, j + 1 => by
    rw [subst_cons_succ, List.getD_cons_succ, List.getD_cons_succ,
      subst_getD ch d w i (by simpa using h) j]
    by_cases hj : j = i <;> simp [hj]

theorem eq_of_getD_eq (u v : Word) (hl : u.length = v.length)
    (h : ∀ j < u.length, u.getD j 'a' = v.getD j 'a') : u = v := by
  apply List.ext_getElem hl
  intro n h1 h2
  have hn := h n h1
  rwa [List.getD_eq_getElem u 'a' h1, List.getD_eq_getElem v 'a' h2] at hn

/-- Membership in `get_neighbors`, unfolded. -/
theorem mem_get_neighbors_iff (wl : List Word) (w v : Word) :
    v ∈ WordLadderGame.get_neighbors wl w ↔
      ∃ i < w.length, ∃ ch ∈ alphabet,
        v = w.take i ++ [ch] ++ w.drop (i + 1) ∧ v ≠ w ∧ v ∈ wl := by
  unfold WordLadderGame.get_neighbors
  rw [List.mem_flatMap]
  constructor
  · rintro ⟨i, hi, hv⟩
    rw [List.mem_range] at hi
    rw [List.mem_filterMap] at hv
    obtain ⟨ch, hch, heq⟩ := hv
    by_cases hcond : (w.take i ++ [ch] ++ w.drop (i + 1)) ≠ w ∧
        (w.take i ++ [ch] ++ w.drop (i + 1)) ∈ wl
    · simp only [if_pos hcond] at heq
      obtain rfl := Option.some.inj heq
      exact ⟨i, hi, ch, hch, rfl, hcond.1, hcond.2⟩
    · simp only [if_neg hcond] at heq
      cases heq
  · rintro ⟨i, hi, ch, hch, rfl, hne, hmem⟩
    refine ⟨i, List.mem_range.mpr hi, ?_⟩
    rw [List.mem_filterMap]
    exact ⟨ch, hch, by simp only [if_pos (And.intro hne hmem)]⟩

/-- A BFS edge is a one-character difference between dictionary words. -/
theorem mem_neighbors_differOne (wl : List Word) (u v : Word)
    (h : v ∈ WordLadderGame.get_neighbors wl u) :
    v ∈ wl ∧ v ≠ u ∧ DifferOne u v := by
  obtain ⟨i, hi, ch, hch, rfl, hne, hmem⟩ := (mem_get_neighbors_iff wl u v).mp h
  refine ⟨hmem, hne, (subst_length ch u i hi).symm, ?_⟩
  have hgd : ∀ j, (u.take i ++ [ch] ++ u.drop (i + 1)).getD j 'a' =
      if j = i then ch else u.getD j 'a' := fun j => subst_getD ch 'a' u i hi j
  have hchne : u.getD i 'a' ≠ ch := by
    intro hceq
    apply hne
    apply eq_of_getD_eq _ _ (subst_length ch u i hi)
    intro j hj
    rw [hgd j]
    by_cases hji : j = i
    · subst hji
      rw [if_pos rfl]
      exact hceq.symm
    · rw [if_neg hji]
  have hcong : (List.range u.length).filter
        (fun j => decide (u.getD j 'a' ≠ (u.take i ++ [ch] ++ u.drop (i + 1)).getD j 'a'))
      = (List.range u.length).filter (fun j => j == i) := by
    apply List.filter_congr
    intro j hj
    rw [List.mem_range] at hj
    rw [hgd j]
    by_cases hji : j = i
    · subst hji
      rw [if_pos rfl]
      exact (decide_eq_true hchne).trans (beq_self_eq_true j).symm
    · rw [if_neg hji]
      exact (decide_eq_false (by simp)).trans (beq_eq_false_iff_ne.mpr hji).symm
  rw [hcong, ← List.countP_eq_length_filter]
  have hc : List.countP (fun j => j == i) (List.range u.length) =
      List.count i (List.range u.length) := by
    apply List.countP_congr
    intro x _
    simp [BEq.comm]
  rw [hc]
  exact List.count_eq_one_of_mem (List.nodup_range _) (List.mem_range.mpr hi)

/-- Conversely, a one-character difference between words of a lowercase
dictionary is a BFS edge. -/
theorem differOne_mem_neighbors (wl : List Word) (u v : Word)
    (hv : v ∈ wl) (hlow : Lowercase v) (hd : DifferOne u v) :
    v ∈ WordLadderGame.get_neighbors wl u := by
  obtain ⟨hlen, hfilt⟩ := hd
  obtain ⟨i, hieq⟩ := List.length_eq_one.mp hfilt
  have hifilt : i ∈ (List.range u.length).filter
      (fun j => decide (u.getD j 'a' ≠ v.getD j 'a')) := by
    rw [hieq]
    exact List.mem_singleton.mpr rfl
  rw [List.mem_filter, List.mem_range] at hifilt
  obtain ⟨hi, hdiffd⟩ := hifilt
  rw [decide_eq_true_eq] at hdiffd
  have hothers : ∀ j < u.length, j ≠ i → u.getD j 'a' = v.getD j 'a' := by
    intro j hj hji
    by_contra hne2
    have hjf : j ∈ (List.range u.length).filter
        (fun j => decide (u.getD j 'a' ≠ v.getD j 'a')) := by
      rw [List.mem_filter, List.mem_range]
      exact ⟨hj, decide_eq_true hne2⟩
    rw [hieq, List.mem_singleton] at hjf
    exact hji hjf
  have hveq : v = u.take i ++ [v.getD i 'a'] ++ u.drop (i + 1) := by
    apply eq_of_getD_eq _ _ (by rw [← hlen, subst_length _ u i hi])
    intro j hj
    rw [subst_getD _ 'a' u i hi j]
    by_cases hji : j = i
    · simp [hji]
    · rw [if_neg hji]
      exact (hothers j (hlen ▸ hj) hji).symm
  have hchmem : v.getD i 'a' ∈ alphabet := by
    have hiv : i < v.length := hlen ▸ hi
    rw [List.getD_eq_getElem v 'a' hiv]
    exact hlow _ (List.getElem_mem hiv)
  have hneq : v ≠ u := by
    intro hvu
    subst hvu
    exact hdiffd rfl
  exact (mem_get_neighbors_iff wl u v).mpr ⟨i, hi, v.getD i 'a', hchmem, hveq, hneq, hv⟩

/-! ### Word ladder: neighbour-path lemmas -/

theorem nbrLadder_ne_nil {wl : List Word} {s u : Word} {p : List Word}
    (h : IsNbrLadder wl s u p) : p ≠ [] := by
  intro he
  subst he
  cases h.1

theorem nbrLadder_length_pos {wl : List Word} {s u : Word} {p : List Word}
    (h : IsNbrLadder wl s u p) : 1 ≤ p.length :=
  List.length_pos.mpr (nbrLadder_ne_nil h)

theorem nbrLadder_singleton (wl : List Word) (s : Word) : IsNbrLadder wl s s [s] :=
  ⟨rfl, rfl, List.chain'_singleton s⟩

/-- Extending a neighbour-path by one search edge. -/
theorem nbrLadder_append {wl : List Word} {s u v : Word} {p : List Word}
    (h : IsNbrLadder wl s u p) (hv : v ∈ WordLadderGame.get_neighbors wl u) :
    IsNbrLadder wl s v (p ++ [v]) := by
  obtain ⟨h1, h2, h3⟩ := h
  refine ⟨?_, by simp, ?_⟩
  · rw [List.head?_append, h1]
    rfl
  · rw [List.chain'_append]
    refine ⟨h3, List.chain'_singleton v, ?_⟩
    intro x hx y hy
    rw [h2] at hx
    simp only [List.head?_cons, Option.mem_some_iff] at hx hy
    subst hx
    subst hy
    exact hv

/-- Splitting the last search edge off a neighbour-path of length ≥ 2. -/
theorem nbrLadder_decomp {wl : List Word} {s u : Word} {p : List Word}
    (h : IsNbrLadder wl s u p) (hlen : 2 ≤ p.length) :
    ∃ v, IsNbrLadder wl s v p.dropLast ∧ u ∈ WordLadderGame.get_neighbors wl v ∧
      p.dropLast.length + 1 = p.length := by
  obtain ⟨h1, h2, h3⟩ := h
  have hne : p ≠ [] := by intro he; subst he; cases h1
  have hdlen : p.dropLast.length = p.length - 1 := List.length_dropLast p
  have hdne : p.dropLast ≠ [] := by
    intro he
    rw [he] at hdlen
    simp at hdlen
    omega
  have hu : p.getLast hne = u := by
    rw [List.getLast?_eq_getLast p hne] at h2
    exact Option.some.inj h2
  have hsplit : p.dropLast ++ [u] = p := by
    rw [← hu]
    exact List.dropLast_append_getLast hne
  obtain ⟨hchain, _, hcross⟩ := List.chain'_append.mp (hsplit ▸ h3)
  refine ⟨p.dropLast.getLast hdne,
    ⟨?_, List.getLast?_eq_getLast _ hdne, hchain⟩, ?_, by omega⟩
  · rw [← hsplit, List.head?_append, List.head?_eq_head hdne] at h1
    rw [List.head?_eq_head hdne]
    exact h1
  · exact hcross _ (Option.mem_def.mpr (List.getLast?_eq_getLast _ hdne)) u rfl

/-- Along a neighbour-chain starting at a dictionary word, every word is in
the dictionary. -/
theorem nbrChain_words_mem (wl : List Word) : ∀ (p : List Word) (s : Word),
    p.head? = some s → s ∈ wl →
    p.Chain' (fun u v => v ∈ WordLadderGame.get_neighbors wl u) →
    ∀ x ∈ p, x ∈ wl
  | [], _, h, _, _, _, hx => by cases hx
  | [a], s, h, hs, _, x, hx => by
    obtain rfl : a = s := Option.some.inj h
    rcases List.mem_singleton.mp hx with rfl
    exact hs
  | a :: b :: t, s, h, hs, hch, x, hx => by
    obtain rfl : a = s := Option.some.inj h
    obtain ⟨hab, hch2⟩ := List.chain'_cons.mp hch
    rcases List.mem_cons.mp hx with rfl | hx2
    · exact hs
    · exact nbrChain_words_mem wl (b :: t) b rfl
        (mem_neighbors_differOne wl _ _ hab).1 hch2 x hx2

/-- Over a lowercase dictionary, a chain of one-character differences within
the dictionary is a chain of search edges. -/
theorem chain_differOne_to_nbr (wl : List Word) (hlow : ∀ w ∈ wl, Lowercase w) :
    ∀ (p : List Word), (∀ w ∈ p, w ∈ wl) → p.Chain' DifferOne →
      p.Chain' (fun u v => v ∈ WordLadderGame.get_neighbors wl u)
  | [], _, _ => List.chain'_nil
  | [a], _, _ => List.chain'_singleton a
  | a :: b :: t, hmem, hch => by
    obtain ⟨hab, hch2⟩ := List.chain'_cons.mp hch
    refine List.chain'_cons.mpr ⟨?_, chain_differOne_to_nbr wl hlow (b :: t)
      (fun w hw => hmem w (List.mem_cons_of_mem _ hw)) hch2⟩
    have hbwl : b ∈ wl := hmem b (by simp)
    exact differOne_mem_neighbors wl a b hbwl (hlow b hbwl) hab

/-- A transformation path in the claim's sense is a neighbour-path when the
dictionary is lowercase. -/
theorem ladder_to_nbrLadder (wl : List Word) (s e : Word) (Q : List Word)
    (hlow : ∀ w ∈ wl, Lowercase w) (hQ : IsLadder wl s e Q) :
    IsNbrLadder wl s e Q :=
  ⟨hQ.1, hQ.2.1, chain_differOne_to_nbr wl hlow Q hQ.2.2.1 hQ.2.2.2⟩

/-! ### Word ladder: the enqueue loop -/

theorem bfsFold_nil (path : List Word) (q : List WordLadderGame.Entry)
    (vis : List Word) : WordLadderGame.bfsFold path [] q vis = (q, vis) := rfl

theorem bfsFold_cons_mem (path : List Word) (n : Word) (ns : List Word)
    (q : List WordLadderGame.Entry) (vis : List Word) (h : n ∈ vis) :
    WordLadderGame.bfsFold path (n :: ns) q vis =
      WordLadderGame.bfsFold path ns q vis := by
  unfold WordLadderGame.bfsFold
  rw [List.foldl_cons]
  simp only [if_pos h]

theorem bfsFold_cons_not_mem (path : List Word) (n : Word) (ns : List Word)
    (q : List WordLadderGame.Entry) (vis : List Word) (h : n ∉ vis) :
    WordLadderGame.bfsFold path (n :: ns) q vis =
      WordLadderGame.bfsFold path ns (q ++ [(n, path ++ [n])]) (n :: vis) := by
  unfold WordLadderGame.bfsFold
  rw [List.foldl_cons]
  simp only [if_neg h]

/-- What one pass of the enqueue loop does: it appends to the queue one entry
`(n, path ++ [n])` for each previously unvisited neighbour `n`, marks exactly
the processed neighbours visited, and never unvisits anything. -/
theorem bfsFold_spec (path : List Word) :
    ∀ (nbrs : List Word) (q : List WordLadderGame.Entry) (vis : List Word),
      ∃ new : List WordLadderGame.Entry,
        (WordLadderGame.bfsFold path nbrs q vis).1 = q ++ new ∧
          (∀ en ∈ new, en.1 ∈ nbrs ∧ en.2 = path ++ [en.1] ∧ en.1 ∉ vis) ∧
          (∀ x ∈ vis, x ∈ (WordLadderGame.bfsFold path nbrs q vis).2) ∧
          (∀ x ∈ (WordLadderGame.bfsFold path nbrs q vis).2, x ∈ vis ∨ x ∈ nbrs) ∧
          (∀ n ∈ nbrs, n ∈ (WordLadderGame.bfsFold path nbrs q vis).2) ∧
          (∀ n ∈ nbrs, n ∉ vis → (n, path ++ [n]) ∈ new)
  | [], q, vis =>
    ⟨[], by rw [bfsFold_nil, List.append_nil], by simp,
      fun x h => by rw [bfsFold_nil]; exact h,
      fun x h => Or.inl (by rwa [bfsFold_nil] at h),
      by simp, by simp⟩
  | n :: ns, q, vis => by
    by_cases h : n ∈ vis
    · rw [bfsFold_cons_mem path n ns q vis h]
      obtain ⟨new, h1, h2, h3, h4, h5, h6⟩ := bfsFold_spec path ns q vis
      refine ⟨new, h1, ?_, h3, ?_, ?_, ?_⟩
      · intro en hen
        obtain ⟨ha, hb, hc⟩ := h2 en hen
        exact ⟨List.mem_cons_of_mem _ ha, hb, hc⟩
      · intro x hx
        rcases h4 x hx with hx1 | hx1
        · exact Or.inl hx1
        · exact Or.inr (List.mem_cons_of_mem _ hx1)
      · intro m hm
        rcases List.mem_cons.mp hm with rfl | hm1
        · exact h3 m h
        · exact h5 m hm1
      · intro m hm hmv
        rcases List.mem_cons.mp hm with rfl | hm1
        · exact absurd h hmv
        · exact h6 m hm1 hmv
    · rw [bfsFold_cons_not_mem path n ns q vis h]
      obtain ⟨new, h1, h2, h3, h4, h5, h6⟩ :=
        bfsFold_spec path ns (q ++ [(n, path ++ [n])]) (n :: vis)
      refine ⟨(n, path ++ [n]) :: new, ?_, ?_, ?_, ?_, ?_, ?_⟩
      · rw [h1, List.append_assoc]
        rfl
      · intro en hen
        rcases List.mem_cons.mp hen with rfl | hen1
        · exact ⟨List.mem_cons_self _ _, rfl, h⟩
        · obtain ⟨ha, hb, hc⟩ := h2 en hen1
          exact ⟨List.mem_cons_of_mem _ ha, hb,
            fun hmem => hc (List.mem_cons_of_mem _ hmem)⟩
      · intro x hx
        exact h3 x (List.mem_cons_of_mem _ hx)
      · intro x hx
        rcases h4 x hx with hx1 | hx1
        · rcases List.mem_cons.mp hx1 with rfl | hx2
          · exact Or.inr (List.mem_cons_self _ _)
          · exact Or.inl hx2
        · exact Or.inr (List.mem_cons_of_mem _ hx1)
      · intro m hm
        rcases List.mem_cons.mp hm with rfl | hm1
        · exact h3 m (List.mem_cons_self _ _)
        · exact h5 m hm1
      · intro m hm hmv
        rcases List.mem_cons.mp hm with rfl | hm1
        · exact List.mem_cons_self _ _
        · by_cases hmn : m = n
          · subst hmn
            exact List.mem_cons_self _ _
          · exact List.mem_cons_of_mem _
              (h6 m hm1 (fun hc => by
                rcases List.mem_cons.mp hc with h' | h'
                · exact hmn h'
                · exact hmv h'))

theorem frontLen_nil : frontLen [] = 0 := rfl

theorem frontLen_cons (wp : WordLadderGame.Entry) (t : List WordLadderGame.Entry) :
    frontLen (wp :: t) = wp.2.length := rfl

theorem frontLen_le_of_mem {q : List WordLadderGame.Entry}
    (hs : q.Pairwise (fun a b => a.2.length ≤ b.2.length))
    {wp : WordLadderGame.Entry} (h : wp ∈ q) : frontLen q ≤ wp.2.length := by
  cases q with
  | nil => cases h
  | cons h0 t =>
    rcases List.mem_cons.mp h with rfl | ht
    · exact Nat.le_refl _
    · exact (List.pairwise_cons.mp hs).1 wp ht

/-- One dequeue/enqueue step of the BFS preserves the loop invariant. -/
theorem bfs_step_inv (wl : List Word) (s cur : Word) (path : List Word)
    (qrest : List WordLadderGame.Entry) (visited : List Word)
    (hinv : BfsInv wl s ((cur, path) :: qrest) visited) :
    BfsInv wl s
      (WordLadderGame.bfsFold path (WordLadderGame.get_neighbors wl cur) qrest visited).1
      (WordLadderGame.bfsFold path (WordLadderGame.get_neighbors wl cur) qrest visited).2 := by
  obtain ⟨new, hq, hnew, hvsub, hvsup, hvnbr, hvadd⟩ :=
    bfsFold_spec path (WordLadderGame.get_neighbors wl cur) qrest visited
  have hfront : IsNbrLadder wl s cur path :=
    hinv.entries (cur, path) (List.mem_cons_self _ _)
  have hLpos : 1 ≤ path.length := nbrLadder_length_pos hfront
  have hfnodup := hinv.nodups (cur, path) (List.mem_cons_self _ _)
  have hlen_new : ∀ en ∈ new, en.2.length = path.length + 1 := by
    intro en hen
    rw [(hnew en hen).2.1]
    simp
  have hwold : ∀ wp ∈ qrest, wp.2.length ≤ path.length + 1 := by
    intro wp hwp
    exact hinv.window wp (List.mem_cons_of_mem _ hwp)
  have hsorted2 := List.pairwise_cons.mp hinv.sorted
  have hbound : ∀ wp ∈ (WordLadderGame.bfsFold path
      (WordLadderGame.get_neighbors wl cur) qrest visited).1,
      wp.2.length ≤ path.length + 1 := by
    intro wp hwp
    rw [hq] at hwp
    rcases List.mem_append.mp hwp with hw | hw
    · exact hwold wp hw
    · exact Nat.le_of_eq (hlen_new wp hw)
  have hsorted' : (WordLadderGame.bfsFold path
      (WordLadderGame.get_neighbors wl cur) qrest visited).1.Pairwise
      (fun a b => a.2.length ≤ b.2.length) := by
    rw [hq, List.pairwise_append]
    refine ⟨hsorted2.2, List.pairwise_of_forall_mem_list ?_, ?_⟩
    · intro a ha b hb
      rw [hlen_new a ha, hlen_new b hb]
    · intro a ha b hb
      rw [hlen_new b hb]
      exact hwold a ha
  have hfl_ge : ∀ wp ∈ (WordLadderGame.bfsFold path
      (WordLadderGame.get_neighbors wl cur) qrest visited).1,
      path.length ≤ frontLen (WordLadderGame.bfsFold path
        (WordLadderGame.get_neighbors wl cur) qrest visited).1 := by
    intro wp hwp
    have hne : (WordLadderGame.bfsFold path
        (WordLadderGame.get_neighbors wl cur) qrest visited).1 ≠ [] :=
      List.ne_nil_of_mem hwp
    obtain ⟨h0, t', hq't⟩ := List.exists_cons_of_ne_nil hne
    have hfl : frontLen (WordLadderGame.bfsFold path
        (WordLadderGame.get_neighbors wl cur) qrest visited).1 = h0.2.length := by
      rw [hq't]
      rfl
    have hh0 : h0 ∈ (WordLadderGame.bfsFold path
        (WordLadderGame.get_neighbors wl cur) qrest visited).1 := by
      rw [hq't]
      exact List.mem_cons_self _ _
    rw [hfl]
    rw [hq] at hh0
    rcases List.mem_append.mp hh0 with hh | hh
    · exact hsorted2.1 h0 hh
    · rw [hlen_new h0 hh]
      omega
  refine ⟨?_, ?_, hsorted', ?_, ?_, ?_, ?_⟩
  · -- entries
    intro wp hwp
    rw [hq] at hwp
    rcases List.mem_append.mp hwp with hw | hw
    · exact hinv.entries wp (List.mem_cons_of_mem _ hw)
    · obtain ⟨hn1, hn2, _⟩ := hnew wp hw
      rw [hn2]
      exact nbrLadder_append hfront hn1
  · -- optimal
    intro wp hwp p2 hp2
    rw [hq] at hwp
    rcases List.mem_append.mp hwp with hw | hw
    · exact hinv.optimal wp (List.mem_cons_of_mem _ hw) p2 hp2
    · obtain ⟨hn1, hn2, hn3⟩ := hnew wp hw
      rw [hlen_new wp hw]
      by_contra hcon
      push_neg at hcon
      have hle : p2.length ≤ path.length := by omega
      exact hn3 (hinv.coverage wp.1 p2 hp2 hle)
  · -- window
    intro wp hwp
    have h1 := hbound wp hwp
    have h2 := hfl_ge wp hwp
    omega
  · -- coverage
    intro u p2 hp2 hle
    by_cases hcase : p2.length ≤ path.length
    · exact hvsub u (hinv.coverage u p2 hp2 hcase)
    · push_neg at hcase
      have hfne : (WordLadderGame.bfsFold path
          (WordLadderGame.get_neighbors wl cur) qrest visited).1 ≠ [] := by
        intro he
        rw [he, frontLen_nil] at hle
        have := nbrLadder_length_pos hp2
        omega
      obtain ⟨h0, t', hq't⟩ := List.exists_cons_of_ne_nil hfne
      have hh0 : h0 ∈ (WordLadderGame.bfsFold path
          (WordLadderGame.get_neighbors wl cur) qrest visited).1 := by
        rw [hq't]
        exact List.mem_cons_self _ _
      have hfl_le : frontLen (WordLadderGame.bfsFold path
          (WordLadderGame.get_neighbors wl cur) qrest visited).1 ≤ path.length + 1 := by
        have hb0 := hbound h0 hh0
        rw [hq't, frontLen_cons]
        exact hb0
      have hp2len : p2.length = path.length + 1 := by omega
      obtain ⟨v, hpv, hedge, hlen2⟩ := nbrLadder_decomp hp2 (by omega)
      have hvvis : v ∈ visited :=
        hinv.coverage v p2.dropLast hpv
          (by rw [frontLen_cons]; show p2.dropLast.length ≤ path.length; omega)
      rcases hinv.expanded v hvvis with ⟨pv, hpvmem⟩ | hexp
      · rcases List.mem_cons.mp hpvmem with heq | hrest
        · obtain ⟨hvcur, _⟩ := Prod.mk.injEq .. |>.mp heq
          subst hvcur
          exact hvnbr u hedge
        · exfalso
          have hopt : pv.length ≤ p2.dropLast.length :=
            hinv.optimal (v, pv) (List.mem_cons_of_mem _ hrest) p2.dropLast hpv
          have hmemq : (v, pv) ∈ (WordLadderGame.bfsFold path
              (WordLadderGame.get_neighbors wl cur) qrest visited).1 := by
            rw [hq]
            exact List.mem_append.mpr (Or.inl hrest)
          have h2 : frontLen (WordLadderGame.bfsFold path
              (WordLadderGame.get_neighbors wl cur) qrest visited).1 ≤ pv.length :=
            frontLen_le_of_mem hsorted' hmemq
          omega
      · exact hvsub u (hexp u hedge)
  · -- expanded
    intro v hv'
    by_cases hvv : v ∈ visited
    · rcases hinv.expanded v hvv with ⟨pv, hpvmem⟩ | hexp
      · rcases List.mem_cons.mp hpvmem with heq | hrest
        · obtain ⟨hvcur, _⟩ := Prod.mk.injEq .. |>.mp heq
          subst hvcur
          exact Or.inr (fun u hu => hvnbr u hu)
        · exact Or.inl ⟨pv, by rw [hq]; exact List.mem_append.mpr (Or.inl hrest)⟩
      · exact Or.inr (fun u hu => hvsub u (hexp u hu))
    · rcases hvsup v hv' with hvis | hnbr
      · exact absurd hvis hvv
      · exact Or.inl ⟨path ++ [v], by
          rw [hq]
          exact List.mem_append.mpr (Or.inr (hvadd v hnbr hvv))⟩
  · -- nodups
    intro wp hwp
    rw [hq] at hwp
    rcases List.mem_append.mp hwp with hw | hw
    · obtain ⟨hnd, hsub⟩ := hinv.nodups wp (List.mem_cons_of_mem _ hw)
      exact ⟨hnd, fun x hx => hvsub x (hsub x hx)⟩
    · obtain ⟨hn1, hn2, hn3⟩ := hnew wp hw
      constructor
      · rw [hn2, List.nodup_append]
        refine ⟨hfnodup.1, List.nodup_singleton _, ?_⟩
        intro a ha hmem
        rcases List.mem_singleton.mp hmem with rfl
        exact hn3 (hfnodup.2 _ ha)
      · intro x hx
        rw [hn2] at hx
        rcases List.mem_append.mp hx with hx1 | hx1
        · exact hvsub x (hfnodup.2 x hx1)
        · rcases List.mem_singleton.mp hx1 with rfl
          exact hvnbr _ hn1

/-- Soundness of the BFS loop under the invariant: any returned path is a
shortest neighbour-path from the start word to the end word, and repeats no
word. -/
theorem bfsLoop_sound (wl : List Word) (e s : Word) :
    ∀ (fuel : Nat) (q : List WordLadderGame.Entry) (visited : List Word)
      (P : List Word),
      BfsInv wl s q visited →
      WordLadderGame.bfsLoop wl e fuel q visited = some P →
      IsNbrLadder wl s e P ∧ (∀ p2, IsNbrLadder wl s e p2 → P.length ≤ p2.length) ∧
        P.Nodup
  | 0, _, _, _, _, h => by cases h
  | fuel + 1, [], _, _, _, h => by cases h
  | fuel + 1, (cur, path) :: qrest, visited, P, hinv, h => by
    rw [WordLadderGame.bfsLoop] at h
    by_cases hce : cur = e
    · rw [if_pos hce] at h
      obtain rfl := Option.some.inj h
      subst hce
      exact ⟨hinv.entries (cur, path) (List.mem_cons_self _ _),
        hinv.optimal (cur, path) (List.mem_cons_self _ _),
        (hinv.nodups (cur, path) (List.mem_cons_self _ _)).1⟩
    · rw [if_neg hce] at h
      exact bfsLoop_sound wl e s fuel _ _ P
        (bfs_step_inv wl s cur path qrest visited hinv) h

/-- The invariant holds for the initial queue and visited set of
`find_shortest_path`. -/
theorem bfs_init_inv (wl : List Word) (s : Word) :
    BfsInv wl s [(s, [s])] [s] := by
  refine ⟨?_, ?_, ?_, ?_, ?_, ?_, ?_⟩
  · intro wp hwp
    rcases List.mem_singleton.mp hwp with rfl
    exact nbrLadder_singleton wl s
  · intro wp hwp p hp
    rcases List.mem_singleton.mp hwp with rfl
    exact nbrLadder_length_pos hp
  · exact List.pairwise_singleton _ _
  · intro wp hwp
    rcases List.mem_singleton.mp hwp with rfl
    exact Nat.le_succ 1
  · intro u p hp hle
    have h1 := nbrLadder_length_pos hp
    have h2 : p.length ≤ 1 := hle
    have h3 : p.length = 1 := by omega
    obtain ⟨a, rfl⟩ := List.length_eq_one.mp h3
    obtain rfl : a = s := Option.some.inj hp.1
    obtain rfl : a = u := Option.some.inj hp.2.1
    exact List.mem_singleton.mpr rfl
  · intro v hv
    rcases List.mem_singleton.mp hv with rfl
    exact Or.inl ⟨[v], List.mem_singleton.mpr rfl⟩
  · intro wp hwp
    rcases List.mem_singleton.mp hwp with rfl
    refine ⟨List.nodup_singleton _, ?_⟩
    intro x hx
    rcases List.mem_singleton.mp hx with rfl
    exact List.mem_singleton.mpr rfl

/-! ### C8 and C10: properties of the returned BFS path -/

/-- C8: over a dictionary of lowercase words (the spec's `WordSet` data
model), every path returned by `find_shortest_path` is at most as long as
any valid transformation path between the same endpoints. -/
theorem c8_bfs_path_shortest (wl : List Word) (s e : Word) (P Q : List Word)
    (hlow : ∀ w ∈ wl, Lowercase w)
    (hP : WordLadderGame.find_shortest_path wl s e = some P)
    (hQ : IsLadder wl s e Q) :
    P.length ≤ Q.length := by
  unfold WordLadderGame.find_shortest_path at hP
  by_cases hmem : s ∈ wl ∧ e ∈ wl
  · rw [if_pos hmem] at hP
    obtain ⟨_, hopt, _⟩ :=
      bfsLoop_sound wl e s (wl.length + 1) _ _ P (bfs_init_inv wl s) hP
    exact hopt Q (ladder_to_nbrLadder wl s e Q hlow hQ)
  · rw [if_neg hmem] at hP
    cases hP

/-- Witness for C8 on the two-word dictionary `aa`, `ab`. -/
theorem c8_bfs_path_shortest_witness :
    (∀ w ∈ ([['a', 'a'], ['a', 'b']] : List Word), Lowercase w) ∧
      WordLadderGame.find_shortest_path [['a', 'a'], ['a', 'b']] ['a', 'a'] ['a', 'b'] =
        some [['a', 'a'], ['a', 'b']] ∧
      IsLadder [['a', 'a'], ['a', 'b']] ['a', 'a'] ['a', 'b']
        [['a', 'a'], ['a', 'b']] ∧
      ([['a', 'a'], ['a', 'b']] : List Word).length ≤
        ([['a', 'a'], ['a', 'b']] : List Word).length :=
  have hlad : IsLadder [['a', 'a'], ['a', 'b']] ['a', 'a'] ['a', 'b']
      [['a', 'a'], ['a', 'b']] :=
    ⟨rfl, rfl, by decide, List.chain'_cons.mpr ⟨by decide, List.chain'_singleton _⟩⟩
  ⟨by decide, by decide, hlad,
    c8_bfs_path_shortest [['a', 'a'], ['a', 'b']] ['a', 'a'] ['a', 'b'] _ _
      (by decide) (by decide) hlad⟩

/-- C10: every path returned by `find_shortest_path` is itself a valid word
ladder: all its words are dictionary members, consecutive words differ in
exactly one character position, and no word occurs twice. -/
theorem c10_returned_path_valid (wl : List Word) (s e : Word) (P : List Word)
    (hP : WordLadderGame.find_shortest_path wl s e = some P) :
    (∀ w ∈ P, w ∈ wl) ∧ P.Chain' DifferOne ∧ P.Nodup := by
  unfold WordLadderGame.find_shortest_path at hP
  by_cases hmem : s ∈ wl ∧ e ∈ wl
  · rw [if_pos hmem] at hP
    obtain ⟨hlad, _, hnd⟩ :=
      bfsLoop_sound wl e s (wl.length + 1) _ _ P (bfs_init_inv wl s) hP
    refine ⟨nbrChain_words_mem wl P s hlad.1 hmem.1 hlad.2.2, ?_, hnd⟩
    exact List.Chain'.imp
      (fun a b hab => (mem_neighbors_differOne wl a b hab).2.2) hlad.2.2
  · rw [if_neg hmem] at hP
    cases hP

/-- Witness for C10 on the two-word dictionary `aa`, `ab`. -/
theorem c10_returned_path_valid_witness :
    WordLadderGame.find_shortest_path [['a', 'a'], ['a', 'b']] ['a', 'a'] ['a', 'b'] =
        some [['a', 'a'], ['a', 'b']] ∧
      ((∀ w ∈ ([['a', 'a'], ['a', 'b']] : List Word),
          w ∈ ([['a', 'a'], ['a', 'b']] : List Word)) ∧
        ([['a', 'a'], ['a', 'b']] : List Word).Chain' DifferOne ∧
        ([['a', 'a'], ['a', 'b']] : List Word).Nodup) :=
  ⟨by decide, c10_returned_path_valid [['a', 'a'], ['a', 'b']] ['a', 'a']
    ['a', 'b'] [['a', 'a'], ['a', 'b']] (by decide)⟩

/-! ### Maze solver: visited-matrix lemmas -/

theorem getD_set_self {α : Type} : ∀ (l : List α) (i : Nat) (x d : α),
    i < l.length → (l.set i x).getD i d = x
  | [], i, _, _, h => absurd h (by simp)
  | _ :: _, 0, _, _, _ => rfl
  | _ :: l, i + 1, x, d, h => by
    simpa using getD_set_self l i x d (by simpa using h)

theorem getD_mem {α : Type} (l : List α) (i : Nat) (d : α) (h : i < l.length) :
    l.getD i d ∈ l := by
  rw [List.getD_eq_getElem l d h]
  exact List.getElem_mem h

/-- Marking never unmarks: visited cells stay visited. -/
theorem getVis_setVis_mono (v : List (List Bool)) (a b r c : Int)
    (h : getVis v r c = true) : getVis (setVis v a b) r c = true := by
  unfold getVis at h
  unfold getVis setVis
  rcases getD_set_cases v a.toNat r.toNat ((v.getD a.toNat []).set b.toNat true) []
    with ⟨hij, _, hv⟩ | hv
  · rw [hv]
    rcases getD_set_cases (v.getD a.toNat []) b.toNat c.toNat true false
      with ⟨_, _, hv2⟩ | hv2
    · rw [hv2]
    · rw [hv2, hij]
      exact h
  · rw [hv]
    exact h

/-- Marking an in-bounds cell of a well-formed matrix records the mark. -/
theorem getVis_setVis_self (rows cols : Nat) (v : List (List Bool)) (a b : Int)
    (hwf : visWF rows cols v) (ha0 : 0 ≤ a) (ha : a < (rows : Int))
    (hb0 : 0 ≤ b) (hb : b < (cols : Int)) :
    getVis (setVis v a b) a b = true := by
  unfold getVis setVis
  have haN : a.toNat < v.length := by rw [hwf.1]; omega
  have hbN : b.toNat < (v.getD a.toNat []).length := by
    rw [hwf.2 _ (getD_mem v a.toNat [] haN)]
    omega
  rw [getD_set_self v a.toNat _ [] haN, getD_set_self _ b.toNat _ false hbN]

/-- A cell visited after a mark was either visited before or is the marked
cell. -/
theorem getVis_setVis_rev (v : List (List Bool)) (a b r c : Int)
    (h : getVis (setVis v a b) r c = true) :
    getVis v r c = true ∨ (r.toNat = a.toNat ∧ c.toNat = b.toNat) := by
  unfold getVis setVis at h
  rcases getD_set_cases v a.toNat r.toNat ((v.getD a.toNat []).set b.toNat true) []
    with ⟨hij, _, hv⟩ | hv
  · rw [hv] at h
    rcases getD_set_cases (v.getD a.toNat []) b.toNat c.toNat true false
      with ⟨hij2, _, hv2⟩ | hv2
    · exact Or.inr ⟨hij.symm, hij2.symm⟩
    · rw [hv2] at h
      rw [hij] at h
      unfold getVis
      exact Or.inl h
  · rw [hv] at h
    exact Or.inl h

/-- Marking preserves well-formedness. -/
theorem visWF_setVis (rows cols : Nat) (v : List (List Bool)) (a b : Int)
    (hwf : visWF rows cols v) : visWF rows cols (setVis v a b) := by
  unfold setVis
  by_cases haN : a.toNat < v.length
  · refine ⟨by rw [List.length_set]; exact hwf.1, ?_⟩
    intro row hrow
    rcases List.mem_or_eq_of_mem_set hrow with hmem | heq
    · exact hwf.2 row hmem
    · rw [heq, List.length_set]
      exact hwf.2 _ (getD_mem v a.toNat [] haN)
  · rw [List.set_eq_of_length_le (by omega)]
    exact hwf

/-- Monotone visited matrices have no more unvisited cells. -/
theorem unvisCnt_le_of_mono (rows cols : Nat) (v v' : List (List Bool))
    (h : ∀ r c : Int, getVis v r c = true → getVis v' r c = true) :
    unvisCnt rows cols v' ≤ unvisCnt rows cols v := by
  apply Finset.card_le_card
  intro p hp
  rw [Finset.mem_filter] at hp ⊢
  refine ⟨hp.1, ?_⟩
  by_cases hv : getVis v (p.1 : Int) (p.2 : Int) = true
  · have := h _ _ hv
    rw [this] at hp
    cases hp.2
  · exact Bool.eq_false_iff.mpr hv

/-- Marking a fresh in-bounds cell strictly shrinks the unvisited set. -/
theorem unvisCnt_setVis_lt (rows cols : Nat) (v : List (List Bool)) (a b : Int)
    (hwf : visWF rows cols v) (ha0 : 0 ≤ a) (ha : a < (rows : Int))
    (hb0 : 0 ≤ b) (hb : b < (cols : Int)) (hun : getVis v a b = false) :
    unvisCnt rows cols (setVis v a b) < unvisCnt rows cols v := by
  apply Finset.card_lt_card
  rw [Finset.ssubset_iff_of_subset]
  · refine ⟨(a.toNat, b.toNat), ?_, ?_⟩
    · rw [Finset.mem_filter, Finset.mem_product]
      refine ⟨⟨Finset.mem_range.mpr (by omega), Finset.mem_range.mpr (by omega)⟩, ?_⟩
      have h1 : ((a.toNat : Nat) : Int) = a := by omega
      have h2 : ((b.toNat : Nat) : Int) = b := by omega
      rw [h1, h2]
      exact hun
    · rw [Finset.mem_filter]
      rintro ⟨_, hfalse⟩
      have h1 : ((a.toNat : Nat) : Int) = a := by omega
      have h2 : ((b.toNat : Nat) : Int) = b := by omega
      rw [h1, h2] at hfalse
      rw [getVis_setVis_self rows cols v a b hwf ha0 ha hb0 hb] at hfalse
      cases hfalse
  · intro p hp
    rw [Finset.mem_filter] at hp ⊢
    refine ⟨hp.1, ?_⟩
    by_cases hv : getVis v (p.1 : Int) (p.2 : Int) = true
    · have := getVis_setVis_mono v a b _ _ hv
      rw [this] at hp
      cases hp.2
    · exact Bool.eq_false_iff.mpr hv

/-- `is_valid_move` split into its stable part and the visited check. -/
theorem valid_iff (rows cols : Nat) (maze : Maze) (v : List (List Bool))
    (r c : Int) :
    MazeSolverDFS.is_valid_move rows cols maze v r c = true ↔
      openCell rows cols maze (r, c) ∧ getVis v r c = false := by
  unfold MazeSolverDFS.is_valid_move openCell
  simp only [Bool.and_eq_true, decide_eq_true_eq, Bool.not_eq_true', bne_iff_ne]
  constructor
  · rintro ⟨⟨⟨⟨⟨h1, h2⟩, h3⟩, h4⟩, h5⟩, h6⟩
    exact ⟨⟨h1, h2, h3, h4, h6⟩, h5⟩
  · rintro ⟨⟨h1, h2, h3, h4, h6⟩, h5⟩
    exact ⟨⟨⟨⟨⟨h1, h2⟩, h3⟩, h4⟩, h5⟩, h6⟩

theorem reach_valid_source {rows cols : Nat} {maze : Maze}
    {visited : List (List Bool)} {p q : Int × Int}
    (h : ReachM rows cols maze visited p q) :
    validCell rows cols maze visited p := by
  induction h with
  | refl hv => exact hv
  | step _ _ _ _ _ ih => exact ih

theorem reach_valid_target {rows cols : Nat} {maze : Maze}
    {visited : List (List Bool)} {p q : Int × Int}
    (h : ReachM rows cols maze visited p q) :
    validCell rows cols maze visited q := by
  cases h with
  | refl hv => exact hv
  | step _ _ _ _ hv => exact hv

/-! ### Maze solver: growth of the visited set -/

theorem tryDirs_mono_wf (rows cols : Nat)
    (dfsF : Int → Int → MazeSolverDFS.SState → Bool × MazeSolverDFS.SState)
    (hf : ∀ r c st,
      (∀ x y : Int, getVis st.visited x y = true →
        getVis (dfsF r c st).2.visited x y = true) ∧
      (visWF rows cols st.visited → visWF rows cols (dfsF r c st).2.visited)) :
    ∀ (dirs : List (Int × Int)) (row col : Int) (st : MazeSolverDFS.SState),
      (∀ x y : Int, getVis st.visited x y = true →
        getVis (MazeSolverDFS.tryDirs dfsF dirs row col st).2.visited x y = true) ∧
      (visWF rows cols st.visited →
        visWF rows cols (MazeSolverDFS.tryDirs dfsF dirs row col st).2.visited)
  | [], _, _, st => ⟨fun _ _ h => h, fun h => h⟩
  | (dr, dc) :: rest, row, col, st => by
    cases hcall : dfsF (row + dr) (col + dc) st with
    | mk b st2 =>
      cases b with
      | true =>
        rw [MazeSolverDFS.tryDirs, hcall]
        constructor
        · intro x y h
          have h2 := (hf (row + dr) (col + dc) st).1 x y h
          rwa [hcall] at h2
        · intro h
          have h2 := (hf (row + dr) (col + dc) st).2 h
          rwa [hcall] at h2
      | false =>
        rw [MazeSolverDFS.tryDirs, hcall]
        have hrec := tryDirs_mono_wf rows cols dfsF hf rest row col st2
        constructor
        · intro x y h
          apply hrec.1 x y
          have h2 := (hf (row + dr) (col + dc) st).1 x y h
          rwa [hcall] at h2
        · intro h
          apply hrec.2
          have h2 := (hf (row + dr) (col + dc) st).2 h
          rwa [hcall] at h2

theorem dfs_mono_wf (rows cols : Nat) (maze : Maze) :
    ∀ (fuel : Nat) (r c : Int) (st : MazeSolverDFS.SState),
      (∀ x y : Int, getVis st.visited x y = true →
        getVis (MazeSolverDFS.dfs rows cols maze fuel r c st).2.visited x y = true) ∧
      (visWF rows cols st.visited →
        visWF rows cols (MazeSolverDFS.dfs rows cols maze fuel r c st).2.visited)
  | 0, _, _, st => ⟨fun _ _ h => h, fun h => h⟩
  | fuel + 1, r, c, st => by
    simp only [MazeSolverDFS.dfs]
    by_cases hv : MazeSolverDFS.is_valid_move rows cols maze st.visited r c = true
    · rw [if_pos hv]
      by_cases hE : (getM maze r c == 'E') = true
      · rw [if_pos hE]
        exact ⟨fun x y h => getVis_setVis_mono st.visited r c x y h,
          fun h => visWF_setVis rows cols st.visited r c h⟩
      · rw [if_neg hE]
        have hrec := tryDirs_mono_wf rows cols (MazeSolverDFS.dfs rows cols maze fuel)
          (fun r' c' st' => dfs_mono_wf rows cols maze fuel r' c' st')
          mazeDirections r c ⟨setVis st.visited r c, st.path ++ [(r, c)]⟩
        cases htry : MazeSolverDFS.tryDirs (MazeSolverDFS.dfs rows cols maze fuel)
            mazeDirections r c ⟨setVis st.visited r c, st.path ++ [(r, c)]⟩ with
        | mk b st2 =>
          rw [htry] at hrec
          cases b with
          | true =>
            exact ⟨fun x y h => hrec.1 x y (getVis_setVis_mono st.visited r c x y h),
              fun h => hrec.2 (visWF_setVis rows cols st.visited r c h)⟩
          | false =>
            exact ⟨fun x y h => hrec.1 x y (getVis_setVis_mono st.visited r c x y h),
              fun h => hrec.2 (visWF_setVis rows cols st.visited r c h)⟩
    · rw [if_neg hv]
      exact ⟨fun _ _ h => h, fun h => h⟩

/-! ### Maze solver: path discipline -/

theorem tryDirs_path_false
    (dfsF : Int → Int → MazeSolverDFS.SState → Bool × MazeSolverDFS.SState)
    (hf : ∀ r c st st', dfsF r c st = (false, st') → st'.path = st.path) :
    ∀ (dirs : List (Int × Int)) (row col : Int) (st st' : MazeSolverDFS.SState),
      MazeSolverDFS.tryDirs dfsF dirs row col st = (false, st') → st'.path = st.path
  | [], _, _, st, st' => by
    intro h
    rw [MazeSolverDFS.tryDirs] at h
    cases h
    rfl
  | (dr, dc) :: rest, row, col, st, st' => by
    intro h
    rw [MazeSolverDFS.tryDirs] at h
    cases hcall : dfsF (row + dr) (col + dc) st with
    | mk b st2 =>
      rw [hcall] at h
      cases b with
      | true => cases h
      | false =>
        rw [tryDirs_path_false dfsF hf rest row col st2 st' h]
        exact hf _ _ _ _ hcall

theorem dfs_path_false (rows cols : Nat) (maze : Maze) :
    ∀ (fuel : Nat) (r c : Int) (st st' : MazeSolverDFS.SState),
      MazeSolverDFS.dfs rows cols maze fuel r c st = (false, st') → st'.path = st.path
  | 0, r, c, st, st' => by
    intro h
    rw [MazeSolverDFS.dfs] at h
    cases h
    rfl
  | fuel + 1, r, c, st, st' => by
    intro h
    simp only [MazeSolverDFS.dfs] at h
    by_cases hv : MazeSolverDFS.is_valid_move rows cols maze st.visited r c = true
    · rw [if_pos hv] at h
      by_cases hE : (getM maze r c == 'E') = true
      · rw [if_pos hE] at h
        cases h
      · rw [if_neg hE] at h
        cases htry : MazeSolverDFS.tryDirs (MazeSolverDFS.dfs rows cols maze fuel)
            mazeDirections r c ⟨setVis st.visited r c, st.path ++ [(r, c)]⟩ with
        | mk b st2 =>
          rw [htry] at h
          cases b with
          | true => cases h
          | false =>
            have h2 : (⟨st2.visited, st2.path.dropLast⟩ : MazeSolverDFS.SState) = st' :=
              congrArg Prod.snd h
            rw [← h2]
            have h3 : st2.path = st.path ++ [(r, c)] :=
              tryDirs_path_false (MazeSolverDFS.dfs rows cols maze fuel)
                (fun r' c' s s' hc => dfs_path_false rows cols maze fuel r' c' s s' hc)
                mazeDirections r c _ st2 htry
            show st2.path.dropLast = st.path
            rw [h3]
            exact List.dropLast_concat
    · rw [if_neg hv] at h
      have h2 : st = st' := congrArg Prod.snd h
      rw [← h2]

theorem tryDirs_path_true (maze : Maze)
    (dfsF : Int → Int → MazeSolverDFS.SState → Bool × MazeSolverDFS.SState)
    (hff : ∀ r c st st', dfsF r c st = (false, st') → st'.path = st.path)
    (hft : ∀ r c st st', dfsF r c st = (true, st') →
      ∃ seg, st'.path = st.path ++ seg ∧ seg.head? = some (r, c) ∧
        (∃ t, seg.getLast? = some t ∧ getM maze t.1 t.2 = 'E') ∧
        List.Chain' cardStep seg) :
    ∀ (dirs : List (Int × Int)) (row col : Int) (st st' : MazeSolverDFS.SState),
      MazeSolverDFS.tryDirs dfsF dirs row col st = (true, st') →
      ∃ d, d ∈ dirs ∧ ∃ seg, st'.path = st.path ++ seg ∧
        seg.head? = some (row + d.1, col + d.2) ∧
        (∃ t, seg.getLast? = some t ∧ getM maze t.1 t.2 = 'E') ∧
        List.Chain' cardStep seg
  | [], _, _, st, st' => by
    intro h
    rw [MazeSolverDFS.tryDirs] at h
    cases h
  | (dr, dc) :: rest, row, col, st, st' => by
    intro h
    rw [MazeSolverDFS.tryDirs] at h
    cases hcall : dfsF (row + dr) (col + dc) st with
    | mk b st2 =>
      rw [hcall] at h
      cases b with
      | true =>
        cases h
        obtain ⟨seg, h1, h2, h3, h4⟩ := hft _ _ _ _ hcall
        exact ⟨(dr, dc), List.mem_cons_self _ _, seg, h1, h2, h3, h4⟩
      | false =>
        obtain ⟨d, hd, seg, h1, h2, h3, h4⟩ :=
          tryDirs_path_true maze dfsF hff hft rest row col st2 st' h
        refine ⟨d, List.mem_cons_of_mem _ hd, seg, ?_, h2, h3, h4⟩
        rw [h1, hff _ _ _ _ hcall]

theorem dfs_path_true (rows cols : Nat) (maze : Maze) :
    ∀ (fuel : Nat) (r c : Int) (st st' : MazeSolverDFS.SState),
      MazeSolverDFS.dfs rows cols maze fuel r c st = (true, st') →
      ∃ seg, st'.path = st.path ++ seg ∧ seg.head? = some (r, c) ∧
        (∃ t, seg.getLast? = some t ∧ getM maze t.1 t.2 = 'E') ∧
        List.Chain' cardStep seg
  | 0, r, c, st, st' => by
    intro h
    rw [MazeSolverDFS.dfs] at h
    cases h
  | fuel + 1, r, c, st, st' => by
    intro h
    simp only [MazeSolverDFS.dfs] at h
    by_cases hv : MazeSolverDFS.is_valid_move rows cols maze st.visited r c = true
    · rw [if_pos hv] at h
      by_cases hE : (getM maze r c == 'E') = true
      · rw [if_pos hE] at h
        have h2 : (⟨setVis st.visited r c, st.path ++ [(r, c)]⟩ : MazeSolverDFS.SState)
            = st' := congrArg Prod.snd h
        refine ⟨[(r, c)], ?_, rfl, ⟨(r, c), rfl, beq_iff_eq.mp hE⟩,
          List.chain'_singleton _⟩
        rw [← h2]
      · rw [if_neg hE] at h
        cases htry : MazeSolverDFS.tryDirs (MazeSolverDFS.dfs rows cols maze fuel)
            mazeDirections r c ⟨setVis st.visited r c, st.path ++ [(r, c)]⟩ with
        | mk b st2 =>
          rw [htry] at h
          cases b with
          | false => cases h
          | true =>
            have h2 : st2 = st' := congrArg Prod.snd h
            subst h2
            obtain ⟨d, hd, seg, h1, hhead, hlast, hchain⟩ :=
              tryDirs_path_true maze (MazeSolverDFS.dfs rows cols maze fuel)
                (fun r' c' s s' hc => dfs_path_false rows cols maze fuel r' c' s s' hc)
                (fun r' c' s s' hc => dfs_path_true rows cols maze fuel r' c' s s' hc)
                mazeDirections r c _ st2 htry
            refine ⟨(r, c) :: seg, ?_, rfl, ?_, ?_⟩
            · rw [h1]
              show (st.path ++ [(r, c)]) ++ seg = st.path ++ (r, c) :: seg
              simp
            · obtain ⟨t, ht1, ht2⟩ := hlast
              refine ⟨t, ?_, ht2⟩
              show ([(r, c)] ++ seg).getLast? = some t
              rw [List.getLast?_append, ht1]
              rfl
            · rw [List.chain'_cons']
              refine ⟨?_, hchain⟩
              intro y hy
              rw [hhead] at hy
              simp only [Option.mem_some_iff] at hy
              subst hy
              show ((r + d.1) - r, (c + d.2) - c) ∈ mazeDirections
              have : ((r + d.1) - r, (c + d.2) - c) = d := by
                cases d
                simp
              rw [this]
              exact hd
    · rw [if_neg hv] at h
      cases h

/-! ### Maze solver: marking and the E-cell -/

/-- An unvisited in-bounds cell witnesses a positive unvisited count. -/
theorem unvisCnt_pos (rows cols : Nat) (v : List (List Bool)) (a b : Int)
    (ha0 : 0 ≤ a) (ha : a < (rows : Int)) (hb0 : 0 ≤ b) (hb : b < (cols : Int))
    (hun : getVis v a b = false) : 1 ≤ unvisCnt rows cols v := by
  rw [Nat.one_le_iff_ne_zero, ← Nat.pos_iff_ne_zero, unvisCnt, Finset.card_pos]
  refine ⟨(a.toNat, b.toNat), ?_⟩
  rw [Finset.mem_filter, Finset.mem_product]
  refine ⟨⟨Finset.mem_range.mpr (by omega), Finset.mem_range.mpr (by omega)⟩, ?_⟩
  have h1 : ((a.toNat : Nat) : Int) = a := by omega
  have h2 : ((b.toNat : Nat) : Int) = b := by omega
  rw [h1, h2]
  exact hun

/-- A valid cell is marked visited by the `dfs` call on it. -/
theorem dfs_marks (rows cols : Nat) (maze : Maze) (fuel : Nat) (r c : Int)
    (st : MazeSolverDFS.SState)
    (hv : MazeSolverDFS.is_valid_move rows cols maze st.visited r c = true)
    (hwf : visWF rows cols st.visited) :
    getVis (MazeSolverDFS.dfs rows cols maze (fuel + 1) r c st).2.visited r c = true := by
  simp only [MazeSolverDFS.dfs]
  rw [if_pos hv]
  obtain ⟨⟨h1, h2, h3, h4, _⟩, _⟩ := (valid_iff rows cols maze st.visited r c).mp hv
  have hmark : getVis (setVis st.visited r c) r c = true :=
    getVis_setVis_self rows cols st.visited r c hwf h1 h2 h3 h4
  by_cases hE : (getM maze r c == 'E') = true
  · rw [if_pos hE]
    exact hmark
  · rw [if_neg hE]
    have hmono := (tryDirs_mono_wf rows cols (MazeSolverDFS.dfs rows cols maze fuel)
      (fun r' c' st' => dfs_mono_wf rows cols maze fuel r' c' st')
      mazeDirections r c ⟨setVis st.visited r c, st.path ++ [(r, c)]⟩).1 r c hmark
    cases htry : MazeSolverDFS.tryDirs (MazeSolverDFS.dfs rows cols maze fuel)
        mazeDirections r c ⟨setVis st.visited r c, st.path ++ [(r, c)]⟩ with
    | mk b st2 =>
      rw [htry] at hmono
      cases b with
      | true => exact hmono
      | false => exact hmono

/-- A failed search has visited no end cell it did not start with. -/
theorem tryDirs_no_new_E (maze : Maze)
    (dfsF : Int → Int → MazeSolverDFS.SState → Bool × MazeSolverDFS.SState)
    (hf : ∀ r c st st', dfsF r c st = (false, st') →
      ∀ z : Int × Int, getVis st'.visited z.1 z.2 = true →
        getVis st.visited z.1 z.2 = false → getM maze z.1 z.2 ≠ 'E') :
    ∀ (dirs : List (Int × Int)) (row col : Int) (st st' : MazeSolverDFS.SState),
      MazeSolverDFS.tryDirs dfsF dirs row col st = (false, st') →
      ∀ z : Int × Int, getVis st'.visited z.1 z.2 = true →
        getVis st.visited z.1 z.2 = false → getM maze z.1 z.2 ≠ 'E'
  | [], _, _, st, st' => by
    intro h z hz1 hz2
    rw [MazeSolverDFS.tryDirs] at h
    cases h
    rw [hz1] at hz2
    cases hz2
  | (dr, dc) :: rest, row, col, st, st' => by
    intro h z hz1 hz2
    rw [MazeSolverDFS.tryDirs] at h
    cases hcall : dfsF (row + dr) (col + dc) st with
    | mk b st2 =>
      rw [hcall] at h
      cases b with
      | true => cases h
      | false =>
        by_cases hmid : getVis st2.visited z.1 z.2 = true
        · exact hf _ _ _ _ hcall z hmid hz2
        · exact tryDirs_no_new_E maze dfsF hf rest row col st2 st' h z hz1
            (Bool.eq_false_iff.mpr hmid)

theorem dfs_no_new_E (rows cols : Nat) (maze : Maze) :
    ∀ (fuel : Nat) (r c : Int) (st st' : MazeSolverDFS.SState),
      MazeSolverDFS.dfs rows cols maze fuel r c st = (false, st') →
      ∀ z : Int × Int, getVis st'.visited z.1 z.2 = true →
        getVis st.visited z.1 z.2 = false → getM maze z.1 z.2 ≠ 'E'
  | 0, r, c, st, st' => by
    intro h z hz1 hz2
    rw [MazeSolverDFS.dfs] at h
    cases h
    rw [hz1] at hz2
    cases hz2
  | fuel + 1, r, c, st, st' => by
    intro h z hz1 hz2
    simp only [MazeSolverDFS.dfs] at h
    by_cases hv : MazeSolverDFS.is_valid_move rows cols maze st.visited r c = true
    · rw [if_pos hv] at h
      by_cases hE : (getM maze r c == 'E') = true
      · rw [if_pos hE] at h
        cases h
      · rw [if_neg hE] at h
        cases htry : MazeSolverDFS.tryDirs (MazeSolverDFS.dfs rows cols maze fuel)
            mazeDirections r c ⟨setVis st.visited r c, st.path ++ [(r, c)]⟩ with
        | mk b st2 =>
          rw [htry] at h
          cases b with
          | true => cases h
          | false =>
            have h2 : (⟨st2.visited, st2.path.dropLast⟩ : MazeSolverDFS.SState) = st' :=
              congrArg Prod.snd h
            rw [← h2] at hz1
            by_cases hmid : getVis (setVis st.visited r c) z.1 z.2 = true
            · rcases getVis_setVis_rev st.visited r c z.1 z.2 hmid with hold | ⟨ht1, ht2⟩
              · rw [hold] at hz2
                cases hz2
              · intro hzE
                apply hE
                rw [beq_iff_eq]
                unfold getM at hzE ⊢
                rw [← ht1, ← ht2]
                exact hzE
            · exact tryDirs_no_new_E maze (MazeSolverDFS.dfs rows cols maze fuel)
                (fun r' c' s s' hc => dfs_no_new_E rows cols maze fuel r' c' s s' hc)
                mazeDirections r c _ st2 htry z hz1 (Bool.eq_false_iff.mpr hmid)
    · rw [if_neg hv] at h
      have h2 : st = st' := congrArg Prod.snd h
      rw [← h2] at hz1
      rw [hz1] at hz2
      cases hz2

/-! ### Maze solver: exhaustive exploration on failure -/

/-- After a failed direction loop, every open two-neighbour of the popped
cell has been visited. -/
theorem tryDirs_cover (rows cols : Nat) (maze : Maze)
    (dfsF : Int → Int → MazeSolverDFS.SState → Bool × MazeSolverDFS.SState)
    (hfmono : ∀ r c st, (∀ x y : Int, getVis st.visited x y = true →
        getVis (dfsF r c st).2.visited x y = true) ∧
      (visWF rows cols st.visited → visWF rows cols (dfsF r c st).2.visited))
    (hfmark : ∀ r c st,
      MazeSolverDFS.is_valid_move rows cols maze st.visited r c = true →
      visWF rows cols st.visited → getVis (dfsF r c st).2.visited r c = true) :
    ∀ (dirs : List (Int × Int)) (row col : Int) (st st' : MazeSolverDFS.SState),
      visWF rows cols st.visited →
      MazeSolverDFS.tryDirs dfsF dirs row col st = (false, st') →
      ∀ d ∈ dirs, openCell rows cols maze (row + d.1, col + d.2) →
        getVis st'.visited (row + d.1) (col + d.2) = true
  | [], _, _, _, _ => by
    intro _ _ d hd
    cases hd
  | (dr, dc) :: rest, row, col, st, st' => by
    intro hwf h d hd hopen
    rw [MazeSolverDFS.tryDirs] at h
    cases hcall : dfsF (row + dr) (col + dc) st with
    | mk b st2 =>
      rw [hcall] at h
      cases b with
      | true => cases h
      | false =>
        have h2 : MazeSolverDFS.tryDirs dfsF rest row col st2 = (false, st') := h
        have hwf2 : visWF rows cols st2.visited := by
          have hx := (hfmono (row + dr) (col + dc) st).2 hwf
          rwa [hcall] at hx
        have hmonorest : ∀ x y : Int, getVis st2.visited x y = true →
            getVis st'.visited x y = true := by
          intro x y hx
          have hm := (tryDirs_mono_wf rows cols dfsF hfmono rest row col st2).1 x y hx
          rwa [h2] at hm
        rcases List.mem_cons.mp hd with rfl | hd2
        · show getVis st'.visited (row + dr) (col + dc) = true
          have hopen2 : openCell rows cols maze (row + dr, col + dc) := hopen
          by_cases hvis : getVis st.visited (row + dr) (col + dc) = true
          · apply hmonorest
            have hm := (hfmono (row + dr) (col + dc) st).1 _ _ hvis
            rwa [hcall] at hm
          · have hvalid : MazeSolverDFS.is_valid_move rows cols maze st.visited
                (row + dr) (col + dc) = true :=
              (valid_iff rows cols maze st.visited _ _).mpr
                ⟨hopen2, Bool.eq_false_iff.mpr hvis⟩
            apply hmonorest
            have hm := hfmark (row + dr) (col + dc) st hvalid hwf
            rwa [hcall] at hm
        · exact tryDirs_cover rows cols maze dfsF hfmono hfmark rest row col st2 st'
            hwf2 h2 d hd2 hopen

/-- Closure transport through the direction loop: neighbours of any cell
newly visited inside the loop end up visited. -/
theorem tryDirs_closure (rows cols : Nat) (maze : Maze) (K : Nat)
    (dfsF : Int → Int → MazeSolverDFS.SState → Bool × MazeSolverDFS.SState)
    (hfmono : ∀ r c st, (∀ x y : Int, getVis st.visited x y = true →
        getVis (dfsF r c st).2.visited x y = true) ∧
      (visWF rows cols st.visited → visWF rows cols (dfsF r c st).2.visited))
    (hfB : ∀ r c st st', unvisCnt rows cols st.visited + 1 ≤ K →
      visWF rows cols st.visited → dfsF r c st = (false, st') →
      ∀ z : Int × Int, openCell rows cols maze z →
        getVis st'.visited z.1 z.2 = true → getVis st.visited z.1 z.2 = false →
        ∀ q : Int × Int, cardStep z q → openCell rows cols maze q →
          getVis st'.visited q.1 q.2 = true) :
    ∀ (dirs : List (Int × Int)) (row col : Int) (st st' : MazeSolverDFS.SState),
      unvisCnt rows cols st.visited + 1 ≤ K →
      visWF rows cols st.visited →
      MazeSolverDFS.tryDirs dfsF dirs row col st = (false, st') →
      ∀ z : Int × Int, openCell rows cols maze z →
        getVis st'.visited z.1 z.2 = true → getVis st.visited z.1 z.2 = false →
        ∀ q : Int × Int, cardStep z q → openCell rows cols maze q →
          getVis st'.visited q.1 q.2 = true
  | [], _, _, st, st' => by
    intro _ _ h z _ hz1 hz2 _ _ _
    rw [MazeSolverDFS.tryDirs] at h
    cases h
    rw [hz1] at hz2
    cases hz2
  | (dr, dc) :: rest, row, col, st, st' => by
    intro hcnt hwf h z hzopen hz1 hz2 q hcard hqopen
    rw [MazeSolverDFS.tryDirs] at h
    cases hcall : dfsF (row + dr) (col + dc) st with
    | mk b st2 =>
      rw [hcall] at h
      cases b with
      | true => cases h
      | false =>
        have h2 : MazeSolverDFS.tryDirs dfsF rest row col st2 = (false, st') := h
        have hwf2 : visWF rows cols st2.visited := by
          have hx := (hfmono (row + dr) (col + dc) st).2 hwf
          rwa [hcall] at hx
        have hcnt2 : unvisCnt rows cols st2.visited + 1 ≤ K := by
          have hle : unvisCnt rows cols st2.visited ≤ unvisCnt rows cols st.visited := by
            apply unvisCnt_le_of_mono
            intro x y hx
            have hm := (hfmono (row + dr) (col + dc) st).1 x y hx
            rwa [hcall] at hm
          omega
        have hmonorest : ∀ x y : Int, getVis st2.visited x y = true →
            getVis st'.visited x y = true := by
          intro x y hx
          have hm := (tryDirs_mono_wf rows cols dfsF hfmono rest row col st2).1 x y hx
          rwa [h2] at hm
        have hz1b : getVis st'.visited z.1 z.2 = true := hz1
        by_cases hmid : getVis st2.visited z.1 z.2 = true
        · apply hmonorest
          exact hfB _ _ _ _ hcnt hwf hcall z hzopen hmid hz2 q hcard hqopen
        · exact tryDirs_closure rows cols maze K dfsF hfmono hfB rest row col st2 st'
            hcnt2 hwf2 h2 z hzopen hz1b (Bool.eq_false_iff.mpr hmid) q hcard hqopen

/-- Closure on failure: after a failed `dfs` call, every open cardinal
neighbour of a cell that the call newly visited has also been visited (the
search backtracks from a cell only after trying all four directions). -/
theorem dfs_closure (rows cols : Nat) (maze : Maze) :
    ∀ (fuel : Nat) (r c : Int) (st st' : MazeSolverDFS.SState),
      unvisCnt rows cols st.visited + 1 ≤ fuel →
      visWF rows cols st.visited →
      MazeSolverDFS.dfs rows cols maze fuel r c st = (false, st') →
      ∀ z : Int × Int, openCell rows cols maze z →
        getVis st'.visited z.1 z.2 = true → getVis st.visited z.1 z.2 = false →
        ∀ q : Int × Int, cardStep z q → openCell rows cols maze q →
          getVis st'.visited q.1 q.2 = true
  | 0, r, c, st, st' => by
    intro hcnt _ _ _ _ _ _ _ _ _
    omega
  | fuel + 1, r, c, st, st' => by
    intro hcnt hwf h z hzopen hz1 hz2 q hcard hqopen
    simp only [MazeSolverDFS.dfs] at h
    by_cases hv : MazeSolverDFS.is_valid_move rows cols maze st.visited r c = true
    · rw [if_pos hv] at h
      by_cases hE : (getM maze r c == 'E') = true
      · rw [if_pos hE] at h
        cases h
      · rw [if_neg hE] at h
        cases htry : MazeSolverDFS.tryDirs (MazeSolverDFS.dfs rows cols maze fuel)
            mazeDirections r c ⟨setVis st.visited r c, st.path ++ [(r, c)]⟩ with
        | mk b st2 =>
          rw [htry] at h
          cases b with
          | true => cases h
          | false =>
            have h2 : (⟨st2.visited, st2.path.dropLast⟩ : MazeSolverDFS.SState) = st' :=
              congrArg Prod.snd h
            have hveq : st'.visited = st2.visited := by rw [← h2]
            obtain ⟨⟨hr0, hrlt, hc0, hclt, _⟩, hunv⟩ :=
              (valid_iff rows cols maze st.visited r c).mp hv
            have hwf1 : visWF rows cols (setVis st.visited r c) :=
              visWF_setVis rows cols st.visited r c hwf
            have hlt := unvisCnt_setVis_lt rows cols st.visited r c hwf hr0 hrlt hc0
              hclt hunv
            have hcnt1 : unvisCnt rows cols (setVis st.visited r c) + 1 ≤ fuel := by
              omega
            obtain ⟨f2, hfuel⟩ : ∃ f2, fuel = f2 + 1 := ⟨fuel - 1, by omega⟩
            have hTDcover := tryDirs_cover rows cols maze
              (MazeSolverDFS.dfs rows cols maze fuel)
              (fun r' c' s => dfs_mono_wf rows cols maze fuel r' c' s)
              (fun r' c' s hv' hwf' => by
                have hm := dfs_marks rows cols maze f2 r' c' s hv' hwf'
                rwa [← hfuel] at hm)
              mazeDirections r c ⟨setVis st.visited r c, st.path ++ [(r, c)]⟩ st2
              hwf1 htry
            have hTDclos := tryDirs_closure rows cols maze fuel
              (MazeSolverDFS.dfs rows cols maze fuel)
              (fun r' c' s => dfs_mono_wf rows cols maze fuel r' c' s)
              (fun r' c' s s' hK hwf' hc =>
                dfs_closure rows cols maze fuel r' c' s s' hK hwf' hc)
              mazeDirections r c ⟨setVis st.visited r c, st.path ++ [(r, c)]⟩ st2
              hcnt1 hwf1 htry
            rw [hveq] at hz1 ⊢
            by_cases hmid : getVis (setVis st.visited r c) z.1 z.2 = true
            · rcases getVis_setVis_rev st.visited r c z.1 z.2 hmid with hold | ⟨ht1, ht2⟩
              · rw [hold] at hz2
                cases hz2
              · obtain ⟨hz10, _, hz20, _, _⟩ := hzopen
                have hz1eq : z.1 = r := by omega
                have hz2eq : z.2 = c := by omega
                unfold cardStep at hcard
                rw [hz1eq, hz2eq] at hcard
                have hq1 : r + (q.1 - r) = q.1 := by ring
                have hq2 : c + (q.2 - c) = q.2 := by ring
                have hopq : openCell rows cols maze (r + (q.1 - r), c + (q.2 - c)) := by
                  rw [hq1, hq2]
                  exact hqopen
                have hres : getVis st2.visited (r + (q.1 - r)) (c + (q.2 - c)) = true :=
                  hTDcover (q.1 - r, q.2 - c) hcard hopq
                rw [hq1, hq2] at hres
                exact hres
            · exact hTDclos z hzopen hz1 (Bool.eq_false_iff.mpr hmid) q hcard hqopen
    · rw [if_neg hv] at h
      have h2 : st = st' := congrArg Prod.snd h
      rw [← h2] at hz1
      rw [hz1] at hz2
      cases hz2

/-- Transport along reachability: if the final visited set is closed under
open cardinal neighbours of newly visited cells, then visiting the source
of a reachable pair forces visiting its target. -/
theorem reach_visited_of_closure (rows cols : Nat) (maze : Maze)
    (vis vis' : List (List Bool))
    (hclos : ∀ z : Int × Int, openCell rows cols maze z →
      getVis vis' z.1 z.2 = true → getVis vis z.1 z.2 = false →
      ∀ q : Int × Int, cardStep z q → openCell rows cols maze q →
        getVis vis' q.1 q.2 = true) :
    ∀ (p t : Int × Int), ReachM rows cols maze vis p t →
      getVis vis' p.1 p.2 = true → getVis vis' t.1 t.2 = true := by
  intro p t hreach
  induction hreach with
  | refl hvx => exact fun hp => hp
  | step y z hxy hcd hvz ih =>
    intro hp
    have hy := ih hp
    have hyv : validCell rows cols maze vis y := reach_valid_target hxy
    obtain ⟨hyopen, hyunv⟩ := (valid_iff rows cols maze vis y.1 y.2).mp hyv
    obtain ⟨hzopen, _⟩ := (valid_iff rows cols maze vis z.1 z.2).mp hvz
    exact hclos y hyopen hy hyunv z hcd hzopen

/-- A failed `dfs` call has visited every cell reachable from its argument
through currently traversable cells. -/
theorem dfs_reach_visited (rows cols : Nat) (maze : Maze) (fuel : Nat)
    (st st' : MazeSolverDFS.SState) (p t : Int × Int)
    (hcnt : unvisCnt rows cols st.visited + 1 ≤ fuel)
    (hwf : visWF rows cols st.visited)
    (h : MazeSolverDFS.dfs rows cols maze fuel p.1 p.2 st = (false, st'))
    (hreach : ReachM rows cols maze st.visited p t) :
    getVis st'.visited t.1 t.2 = true := by
  have hsrc : getVis st'.visited p.1 p.2 = true := by
    obtain ⟨f2, hfuel⟩ : ∃ f2, fuel = f2 + 1 := ⟨fuel - 1, by omega⟩
    have hvp : MazeSolverDFS.is_valid_move rows cols maze st.visited p.1 p.2 = true :=
      reach_valid_source hreach
    have hm := dfs_marks rows cols maze f2 p.1 p.2 st hvp hwf
    rw [← hfuel] at hm
    rwa [h] at hm
  exact reach_visited_of_closure rows cols maze st.visited st'.visited
    (fun z hzo hz1 hz2 q hcd hqo =>
      dfs_closure rows cols maze fuel p.1 p.2 st st' hcnt hwf h z hzo hz1 hz2 q hcd hqo)
    p t hreach hsrc

/-- The solver's initial visited matrix is well-formed. -/
theorem visWF_init (rows cols : Nat) :
    visWF rows cols (MazeSolverDFS.initState rows cols).visited := by
  constructor
  · exact List.length_replicate rows _
  · intro row hrow
    rw [List.eq_of_mem_replicate hrow]
    exact List.length_replicate cols _

/-- The unvisited count never exceeds the grid size. -/
theorem unvisCnt_le (rows cols : Nat) (v : List (List Bool)) :
    unvisCnt rows cols v ≤ rows * cols := by
  unfold unvisCnt
  calc (((Finset.range rows) ×ˢ (Finset.range cols)).filter
        (fun p => getVis v (p.1 : Int) (p.2 : Int) = false)).card
      ≤ ((Finset.range rows) ×ˢ (Finset.range cols)).card :=
        Finset.card_filter_le _ _
    _ = rows * cols := by
        rw [Finset.card_product, Finset.card_range, Finset.card_range]

/-- C6: for every maze in which an `'E'` cell is reachable from the start
coordinate through in-bounds non-wall cells, `MazeSolverDFS.solve` returns a
path whose first element is the start coordinate, whose last element is an
end (`'E'`) cell, and in which every pair of consecutive coordinates differs
by exactly one cardinal step (Manhattan distance 1). -/
theorem c6_solve_finds_path (maze : Maze) (sr sc : Int) (t : Int × Int)
    (hreach : ReachM maze.length (maze.getD 0 []).length maze
      (MazeSolverDFS.initState maze.length (maze.getD 0 []).length).visited
      (sr, sc) t)
    (htE : getM maze t.1 t.2 = 'E') :
    ∃ (p : List (Int × Int)) (st' : MazeSolverDFS.SState),
      MazeSolverDFS.solve maze sr sc = (some p, st') ∧
      p.head? = some (sr, sc) ∧
      (∃ e, p.getLast? = some e ∧ getM maze e.1 e.2 = 'E') ∧
      List.Chain' cardStep p := by
  have hvstart : MazeSolverDFS.is_valid_move maze.length (maze.getD 0 []).length maze
      (MazeSolverDFS.initState maze.length (maze.getD 0 []).length).visited sr sc
      = true := reach_valid_source hreach
  simp only [MazeSolverDFS.solve]
  rw [if_pos hvstart]
  cases hdfs : MazeSolverDFS.dfs maze.length (maze.getD 0 []).length maze
      (maze.length * (maze.getD 0 []).length + 1) sr sc
      (MazeSolverDFS.initState maze.length (maze.getD 0 []).length) with
  | mk b st =>
    cases b with
    | true =>
      obtain ⟨seg, hpath, hhead, hlast, hchain⟩ :=
        dfs_path_true maze.length (maze.getD 0 []).length maze
          (maze.length * (maze.getD 0 []).length + 1) sr sc
          (MazeSolverDFS.initState maze.length (maze.getD 0 []).length) st hdfs
      have hps : st.path = seg := hpath
      refine ⟨st.path, st, rfl, ?_, ?_, ?_⟩
      · rw [hps, hhead]
      · rw [hps]
        exact hlast
      · rw [hps]
        exact hchain
    | false =>
      exfalso
      have hwf0 := visWF_init maze.length (maze.getD 0 []).length
      have hcnt : unvisCnt maze.length (maze.getD 0 []).length
          (MazeSolverDFS.initState maze.length (maze.getD 0 []).length).visited + 1 ≤
          maze.length * (maze.getD 0 []).length + 1 := by
        have hle := unvisCnt_le maze.length (maze.getD 0 []).length
          (MazeSolverDFS.initState maze.length (maze.getD 0 []).length).visited
        omega
      have hvis : getVis st.visited t.1 t.2 = true :=
        dfs_reach_visited maze.length (maze.getD 0 []).length maze
          (maze.length * (maze.getD 0 []).length + 1)
          (MazeSolverDFS.initState maze.length (maze.getD 0 []).length) st
          (sr, sc) t hcnt hwf0 hdfs hreach
      exact dfs_no_new_E maze.length (maze.getD 0 []).length maze
        (maze.length * (maze.getD 0 []).length + 1) sr sc
        (MazeSolverDFS.initState maze.length (maze.getD 0 []).length) st hdfs t hvis
        (initState_visited_false maze.length (maze.getD 0 []).length t.1 t.2) htE

/-- C6 witness: on the 1x3 maze `S . E` with start (0,0), the end cell (0,2)
is reachable and `solve` returns a valid cardinal path from start to end. -/
theorem c6_solve_finds_path_witness :
    ∃ (p : List (Int × Int)) (st' : MazeSolverDFS.SState),
      MazeSolverDFS.solve [['S', ' ', 'E']] 0 0 = (some p, st') ∧
      p.head? = some (0, 0) ∧
      (∃ e, p.getLast? = some e ∧ getM [['S', ' ', 'E']] e.1 e.2 = 'E') ∧
      List.Chain' cardStep p :=
  c6_solve_finds_path [['S', ' ', 'E']] 0 0 (0, 2)
    (ReachM.step (0, 0) (0, 1) (0, 2)
      (ReachM.step (0, 0) (0, 0) (0, 1)
        (ReachM.refl (0, 0) (by unfold validCell; decide))
        (by unfold cardStep; decide) (by unfold validCell; decide))
      (by unfold cardStep; decide) (by unfold validCell; decide))
    rfl
